import Mathlib

set_option maxRecDepth 8000

namespace Rv6

/-!
Shallow embedding of the rv6 LFS image builder (src/mklfs/mklfs.c,
src/mklfs/lfs.h) and of the kernel buffer cache (src/kernel/bio.c).

Machine integers (`uint`, `ushort`, `int`) are modelled as `Nat` / `Int`;
none of the quantities involved (block numbers < 5001, inode numbers < 201,
sizes < 2^20, reference counts < 10) comes near an overflow boundary of the
C types, and the little-endian codec `xshort`/`xint` is a bijection applied
on every store and load, so values are carried directly.

The disk is a map from block number to block content.  The builder writes
each block with exactly one C struct type (segment summary, dinode, imap
chunk, indirect array, data bytes, superblock, checkpoint) and reads it back
only at that same type; a never-written block is zero-filled (main's initial
`wsect(i, zeroes)` loop), which each reading cast interprets as the all-zero
struct.  The `Block` inductive records the struct stored, and each `as*`
reader returns the all-zero struct on a zero-filled block, exactly as the C
pointer casts do.
-/

/-! ### Layout constants, from src/mklfs/lfs.h and src/mklfs/mklfs.c -/

def BSIZE : Nat := 1024
def SEGSIZE : Nat := 10
def FSSIZE : Nat := 5000
def NINODES : Nat := 200
def NMETA : Nat := 4
def NINODEMAP : Nat := (NINODES * 4 + BSIZE - 1) / BSIZE
def NSEG : Nat := (FSSIZE - NMETA) / SEGSIZE
def SEGTABLESIZE : Nat := (NSEG + 31) / 32 * 4
def NENTRY : Nat := BSIZE / 4
def NDIRECT : Nat := 12
def NINDIRECT : Nat := BSIZE / 4
def MAXFILE : Nat := NDIRECT + NINDIRECT
def ROOTINO : Nat := 1
def DIRSIZ : Nat := 14

/-- Block types used in segment summary entries (lfs.h). -/
def SEGSUM_EMPTY : Nat := 0
def SEGSUM_INODE : Nat := 1
def SEGSUM_DATA : Nat := 2
def SEGSUM_INDIRECT : Nat := 3
def SEGSUM_IMAP : Nat := 4

/-- File types from kernel/stat.h (header not among the provided sources;
only the fact that the stored type is the argument of `ialloc` matters to
the claims, never its numeric value). -/
def T_DIR : Nat := 1
def T_FILE : Nat := 2

/-- SEGNO macro from mklfs.c: segment number storing block i. -/
def SEGNO (i : Nat) : Nat := (i - NMETA) / SEGSIZE

/-- struct dsegsumentry (lfs.h). -/
structure SegEntry where
  block_type : Nat
  inum : Nat
  block_no : Nat
deriving DecidableEq

def emptyEntry : SegEntry := ⟨0, 0, 0⟩

/-- struct dinode (lfs.h); addrs has NDIRECT+1 slots. -/
structure Dinode where
  type : Nat
  major : Nat
  minor : Nat
  nlink : Nat
  size : Nat
  addrs : List Nat
deriving DecidableEq

def dinode0 : Dinode := ⟨0, 0, 0, 0, 0, List.replicate (NDIRECT + 1) 0⟩

/-- struct checkpoint (mklfs.c): imap block addresses, segment usage bitmap
(SEGTABLESIZE bytes), timestamp. -/
structure Checkpoint where
  imap : List Nat
  segtable : List Nat
  timestamp : Nat
deriving DecidableEq

def chkpt0 : Checkpoint :=
  ⟨List.replicate NINODEMAP 0, List.replicate SEGTABLESIZE 0, 0⟩

/-- Content of one disk block, tagged by the struct the builder stored in it. -/
inductive Block where
  | zeros
  | super
  | summary (entries : List SegEntry)
  | inodeBlk (d : Dinode)
  | dataBlk (bytes : List Nat)
  | indBlk (addrs : List Nat)
  | imapBlk (addrs : List Nat)
  | chkptBlk (c : Checkpoint)
deriving DecidableEq

/-- Reading a block as `struct dsegsum` (the cast in balloc). A zero-filled
block reads as SEGSIZE-1 empty entries. -/
def Block.asSummary : Block → List SegEntry
  | .summary es => es
  | _ => List.replicate (SEGSIZE - 1) emptyEntry

/-- Reading a block as `struct dinode` (the cast in rinode). -/
def Block.asDinode : Block → Dinode
  | .inodeBlk d => d
  | _ => dinode0

/-- Reading a block as `uint indirect[NINDIRECT]` (the cast in iappend). -/
def Block.asIndirect : Block → List Nat
  | .indBlk l => l
  | _ => List.replicate NINDIRECT 0

/-- Reading a block as raw bytes (the data-block read in iappend). -/
def Block.asBytes : Block → List Nat
  | .dataBlk bs => bs
  | _ => List.replicate BSIZE 0

/-- Reading a block as `struct checkpoint`. -/
def Block.asChkpt : Block → Checkpoint
  | .chkptBlk c => c
  | _ => chkpt0

/-! ### Builder state (the globals of mklfs.c) -/

/-- The mutable globals of mklfs.c: the allocation cursors `freeblock` and
`freeinode`, the in-memory inode map `imp[NINODES]`, the imap block number
array `imp_block_no[NINODEMAP]`, and the image being written (`fsfd`,
as a map from block number to content).  `imp` is total on `Nat` so that
the out-of-bounds store of `ialloc` at `inum ≥ NINODES` stays observable. -/
structure BState where
  freeblock : Nat
  freeinode : Nat
  imp : Nat → Nat
  impBlockNo : Nat → Nat
  disk : Nat → Block

/-- wsect from mklfs.c: write one block. -/
def wsect (s : BState) (sec : Nat) (b : Block) : BState :=
  { s with disk := fun n => if n = sec then b else s.disk n }

/-- rsect from mklfs.c: read one block. -/
def rsect (s : BState) (sec : Nat) : Block := s.disk sec

/-- The first block balloc would hand out from cursor fb: the cursor itself
unless it sits on a segment-summary block, which is skipped. -/
def ballocNext (fb : Nat) : Nat :=
  if (fb - NMETA) % SEGSIZE = 0 then fb + 1 else fb

/-- balloc from mklfs.c: skip the segment-summary block if the cursor is on
one, write the summary entry for the allocated block into the summary block
of its segment, return the block and post-increment the cursor. -/
def balloc (s : BState) (block_type inum block_no : Nat) : BState × Nat :=
  let fb := ballocNext s.freeblock
  let segnum := SEGNO fb
  let bn := NMETA + segnum * SEGSIZE
  let es := (rsect s bn).asSummary
  let es' := es.set (fb - bn - 1) ⟨block_type, inum, block_no⟩
  let s' := wsect s bn (.summary es')
  ({ s' with freeblock := fb + 1 }, fb)

/-- winode from mklfs.c: write dinode ip into block IBLOCK(inum, imp). -/
def winode (s : BState) (inum : Nat) (ip : Dinode) : BState :=
  wsect s (s.imp inum) (.inodeBlk ip)

/-- rinode from mklfs.c: read the dinode of inum from block IBLOCK(inum, imp). -/
def rinode (s : BState) (inum : Nat) : Dinode :=
  (rsect s (s.imp inum)).asDinode

/-- ialloc from mklfs.c: take inum = freeinode++, allocate an inode block,
record it in imp[inum], write the fresh dinode, return inum.  There is no
bound check against NINODES. -/
def ialloc (s : BState) (type : Nat) : BState × Nat :=
  let inum := s.freeinode
  let s1 := { s with freeinode := inum + 1 }
  let din : Dinode := { dinode0 with type := type, nlink := 1, size := 0 }
  let p := balloc s1 SEGSUM_INODE inum 0
  let s2 := { p.1 with imp := fun i => if i = inum then p.2 else p.1.imp i }
  (winode s2 inum din, inum)

/-- State of the builder right after main's initialisation: cursor at NMETA,
first inode number 1, imp zeroed, every block of the image zero-filled. -/
def initState : BState :=
  { freeblock := NMETA
    freeinode := 1
    imp := fun _ => 0
    impBlockNo := fun _ => 0
    disk := fun _ => .zeros }

/-- One iteration of the wimap loop in mklfs.c: build the i-th imap chunk
from imp[], allocate its block, record it in imp_block_no[i], write it. -/
def wimapStep (s : BState) (i : Nat) : BState :=
  let addrs := (List.range NENTRY).map
    (fun j => if i * NENTRY + j < NINODES then s.imp (i * NENTRY + j) else 0)
  let p := balloc s SEGSUM_IMAP 0 i
  let s1 := { p.1 with impBlockNo := fun k => if k = i then p.2 else p.1.impBlockNo k }
  wsect s1 p.2 (.imapBlk addrs)

/-- wimap from mklfs.c: write all NINODEMAP imap blocks. -/
def wimap (s : BState) : BState :=
  (List.range NINODEMAP).foldl wimapStep s

/-- Segment usage table as built by the loop in wchkpt: bits 0..used-1 are
set, one bit per used segment, in a zero-initialised SEGTABLESIZE-byte
array. -/
def mkSegtable (used : Nat) : List Nat :=
  (List.range used).foldl
    (fun t i => t.set (i / 8) (t.getD (i / 8) 0 ||| (1 <<< (i % 8))))
    (List.replicate SEGTABLESIZE 0)

/-- wchkpt from mklfs.c: zero-fill the block buffer; for chkpt_no = 1 fill
in the imap block addresses, the segment usage bitmap and timestamp 1; for
any other chkpt_no leave it zero; write the buffer to block 1 + chkpt_no. -/
def wchkpt (s : BState) (chkpt_no : Nat) : BState :=
  if chkpt_no = 1 then
    let imap := (List.range NINODEMAP).map s.impBlockNo
    let used := (s.freeblock - NMETA + SEGSIZE - 1) / SEGSIZE
    wsect s (1 + chkpt_no) (.chkptBlk ⟨imap, mkSegtable used, 1⟩)
  else
    wsect s (1 + chkpt_no) .zeros

/-- Bit j of the segment usage table, bytewise as the wchkpt loop stores it. -/
def segtableBit (t : List Nat) (j : Nat) : Bool :=
  (t.getD (j / 8) 0).testBit (j % 8)

/-- Checkpoint selection at mount time.  Modelled from the spec: the kernel
side that reads the image back is not among the provided sources (only
mklfs and the buffer cache are); the spec states that the newer
(higher-timestamp) checkpoint is authoritative, ties resolved by picking
checkpoint 1. -/
def selectChkpt (ts1 ts2 : Nat) : Nat :=
  if ts1 < ts2 then 2 else 1

/-! ### iappend (mklfs.c)

The loop body of `iappend`, one recursive step per iteration of
`while(n > 0)`.  The data still to be appended is the byte list `p`; the
assertion `assert(fbn < MAXFILE)` is modelled by returning `none`. -/

/-- Body of one iteration of iappend's `while(n > 0)` loop, after the
`fbn < MAXFILE` assertion passed: pick (allocating on first touch) the
data block for file-block fbn — directly, or through the indirect block
which is itself allocated on first overflow — copy the bytes that fit
into the tail of that block and write it back.  Returns the new state,
the new in-memory dinode, and n1, the number of bytes consumed. -/
def iappendBody (inum : Nat) (s : BState) (din : Dinode) (off : Nat)
    (p : List Nat) : BState × Dinode × Nat :=
  let n := p.length
  let fbn := off / BSIZE
  let step :=
    if fbn < NDIRECT then
      let sd :=
        if din.addrs.getD fbn 0 = 0 then
          let q := balloc s SEGSUM_DATA inum fbn
          (q.1, { din with addrs := din.addrs.set fbn q.2 })
        else (s, din)
      (sd.1, sd.2, sd.2.addrs.getD fbn 0)
    else
      let sd :=
        if din.addrs.getD NDIRECT 0 = 0 then
          let q := balloc s SEGSUM_INDIRECT inum 0
          (q.1, { din with addrs := din.addrs.set NDIRECT q.2 })
        else (s, din)
      let indAddr := sd.2.addrs.getD NDIRECT 0
      let ind := (rsect sd.1 indAddr).asIndirect
      let si :=
        if ind.getD (fbn - NDIRECT) 0 = 0 then
          let q := balloc sd.1 SEGSUM_DATA inum fbn
          let ind' := ind.set (fbn - NDIRECT) q.2
          (wsect q.1 indAddr (.indBlk ind'), ind')
        else (sd.1, ind)
      (si.1, sd.2, si.2.getD (fbn - NDIRECT) 0)
  let s1 := step.1
  let din1 := step.2.1
  let x := step.2.2
  let n1 := min n ((fbn + 1) * BSIZE - off)
  let bytes := (rsect s1 x).asBytes
  let bytes' := bytes.take (off - fbn * BSIZE) ++ p.take n1
    ++ bytes.drop (off - fbn * BSIZE + n1)
  let s2 := wsect s1 x (.dataBlk bytes')
  (s2, din1, n1)

/-- Loop of iappend: carries the evolving image state, the local dinode
copy, the current offset, and the remaining bytes; yields the final state,
dinode and offset, or none when the `fbn < MAXFILE` assertion fails.  The
first argument is structural fuel: every iteration consumes at least one
byte (n1 ≥ 1), so fuel equal to the byte count (as `iappend` passes)
always suffices and the fuel-exhausted branch is unreachable from
`iappend`. -/
def iappendLoop (inum : Nat) : Nat → BState → Dinode → Nat → List Nat →
    Option (BState × Dinode × Nat)
  | _, s, din, off, [] => some (s, din, off)
  | 0, _, _, _, _ :: _ => none
  | fuel + 1, s, din, off, c :: cs =>
    if off / BSIZE < MAXFILE then
      let st := iappendBody inum s din off (c :: cs)
      iappendLoop inum fuel st.1 st.2.1 (off + st.2.2) ((c :: cs).drop st.2.2)
    else none

/-- iappend from mklfs.c: read the dinode, run the append loop from offset
`size`, then write the dinode back with the new size. -/
def iappend (s : BState) (inum : Nat) (p : List Nat) : Option BState :=
  let din := rinode s inum
  match iappendLoop inum p.length s din din.size p with
  | none => none
  | some (s1, din1, off) => some (winode s1 inum { din1 with size := off })

/-! ### Top-level build procedure (main of mklfs.c) -/

/-- Bytes of a `struct dirent`: 16-bit little-endian inum followed by the
name, truncated or zero-padded to DIRSIZ characters (strncpy into the
bzero-ed struct). -/
def direntBytes (inum : Nat) (name : List Nat) : List Nat :=
  [inum % 256, inum / 256 % 256] ++ (name ++ List.replicate DIRSIZ 0).take DIRSIZ

/-- Successive reads of at most BSIZE bytes (fuel-structured: each step
consumes at least one byte, so fuel equal to the byte count suffices). -/
def chunksF : Nat → List Nat → List (List Nat)
  | _, [] => []
  | 0, _ :: _ => []
  | fuel + 1, c :: cs =>
    (c :: cs).take BSIZE :: chunksF fuel ((c :: cs).drop BSIZE)

/-- The file contents as main's `while((cc = read(fd, buf, sizeof(buf))) > 0)`
loop delivers them: BSIZE chunks, last one possibly short. -/
def chunks (l : List Nat) : List (List Nat) := chunksF l.length l

/-- One input file: its directory name (already stripped of `user/` and
leading underscore, which the claims do not touch) and its bytes. -/
structure InputFile where
  name : List Nat
  contents : List Nat

/-- Body of main's per-file loop: allocate a T_FILE inode, append its
dirent to the root directory, stream the contents in BSIZE chunks. -/
def addFile (s : BState) (f : InputFile) : Option BState :=
  let p := ialloc s T_FILE
  match iappend p.1 ROOTINO (direntBytes p.2 f.name) with
  | none => none
  | some s1 => (chunks f.contents).foldlM (fun st ch => iappend st p.2 ch) s1

/-- main of mklfs.c up to the end of the per-file loop: write the
superblock, create the root directory with its `.` and `..` entries, add
every input file.  (The zeroing pass over all FSSIZE blocks is the
all-zeros initial disk.) -/
def buildDirs (files : List InputFile) : Option BState :=
  let s := wsect initState 1 .super
  let p := ialloc s T_DIR
  match iappend p.1 p.2 (direntBytes p.2 [46]) with
  | none => none
  | some s1 =>
  match iappend s1 p.2 (direntBytes p.2 [46, 46]) with
  | none => none
  | some s2 => files.foldlM addFile s2

/-- main of mklfs.c: after the per-file loop, round the root size up per
the fixup (`off = ((off/BSIZE) + 1) * BSIZE`), write the imap and both
checkpoints. -/
def build (files : List InputFile) : Option BState :=
  match buildDirs files with
  | none => none
  | some s3 =>
    let din := rinode s3 ROOTINO
    let off := (din.size / BSIZE + 1) * BSIZE
    let s4 := winode s3 ROOTINO { din with size := off }
    let s5 := wimap s4
    some (wchkpt (wchkpt s5 1) 2)

/-! ### Iterated allocation runs (for the allocator claims) -/

/-- A pure sequence of balloc calls, each described by the summary triple it
passes; returns the final state and the blocks returned, in call order. -/
def ballocRun : List SegEntry → BState → BState × List Nat
  | [], s => (s, [])
  | r :: rs, s =>
    let p := balloc s r.block_type r.inum r.block_no
    let q := ballocRun rs p.1
    (q.1, p.2 :: q.2)

/-- The summary entry describing block b: entry `b - bn - 1` of the summary
block `bn` of b's segment. -/
def summaryEntryFor (d : Nat → Block) (b : Nat) : SegEntry :=
  (d (NMETA + SEGNO b * SEGSIZE)).asSummary.getD (b - (NMETA + SEGNO b * SEGSIZE) - 1)
    emptyEntry

/-- n balloc calls in a row (arguments immaterial to the cursor). -/
def ballocN : Nat → BState → BState
  | 0, s => s
  | n + 1, s => ballocN n (balloc s SEGSUM_DATA 1 0).1

/-- The freeblock cursor after one balloc call. -/
def cursorStep (fb : Nat) : Nat := ballocNext fb + 1

/-- The freeblock cursor after n balloc calls. -/
def cursorN : Nat → Nat → Nat
  | 0, fb => fb
  | n + 1, fb => cursorN n (cursorStep fb)

/-- n ialloc calls in a row (all of type T_FILE, as main's file loop). -/
def iallocN : Nat → BState → BState
  | 0, s => s
  | n + 1, s => iallocN n (ialloc s T_FILE).1

/-! ### Buffer cache (src/kernel/bio.c)

Serialized model: one operation (bread / bget / brelse / bwrite) runs to
completion at a time, as the claims' serialized sequences demand.  `bufs`
lists the buffers in list order from `head.next` (most recently used) to
`head.prev` (least recently used); a buffer is identified by `idx`, its
index in the `bcache.buf` array, which never changes.  The per-buffer
mutex is the boolean `lockHeld`; acquiring a held lock would block a
serialized run forever, which the step function models by returning
`none`.  `stamp`/`clock` are ghost fields recording the order of
insertions at `head.next`, used only to state the LRU claim; no operation
reads them.  The device contract `virtio_disk_rw` is an outcome oracle
passed to `bread`/`bwrite`.  `refcnt` is a C int, hence `Int`. -/

def NBUF : Nat := 8

/-- struct buf (bio.c), list links replaced by the position in `Cache.bufs`. -/
structure KBuf where
  idx : Nat
  dev : Nat
  blockno : Nat
  valid : Bool
  refcnt : Int
  lockHeld : Bool
  stamp : Nat
deriving DecidableEq

/-- struct buf_cache: the LRU list (MRU first) plus the ghost clock. -/
structure Cache where
  bufs : List KBuf
  clock : Nat
deriving DecidableEq

/-- buf_cache_init: buffers 0..NBUF-1 are each inserted at head.next, so
the final list order is NBUF-1, ..., 1, 0. -/
def cacheInit : Cache :=
  ⟨(List.range NBUF).reverse.map (fun i => ⟨i, 0, 0, false, 0, false, i⟩), NBUF⟩

/-- Update the buffer with index i in place. -/
def updateBuf (c : Cache) (i : Nat) (f : KBuf → KBuf) : Cache :=
  { c with bufs := c.bufs.map (fun b => if b.idx = i then f b else b) }

/-- bget from bio.c.  Result: `none` when the serialized run would block on
a held buffer lock; `some (c, none)` for the NULL return (all buffers in
use); `some (c, some i)` for a returned locked buffer i.  The first scan
runs head.next to head.prev (list order); the recycling scan runs
head.prev to head.next (reverse order) and takes the first `refcnt == 0`
buffer it meets. -/
def bget (c : Cache) (dev blockno : Nat) : Option (Cache × Option Nat) :=
  match c.bufs.find? (fun b => b.dev = dev && b.blockno = blockno) with
  | some b =>
    if b.lockHeld then none
    else some (updateBuf c b.idx
      (fun x => { x with refcnt := x.refcnt + 1, lockHeld := true }), some b.idx)
  | none =>
    match c.bufs.reverse.find? (fun b => b.refcnt = 0) with
    | some b =>
      if b.lockHeld then none
      else some (updateBuf c b.idx
        (fun x => { x with dev := dev, blockno := blockno, valid := false,
                           refcnt := 1, lockHeld := true }), some b.idx)
    | none => some (c, none)

/-- Buffer with index i (i is always present in the runs considered). -/
def getBuf (c : Cache) (i : Nat) : KBuf :=
  (c.bufs.find? (fun b => b.idx = i)).getD ⟨i, 0, 0, false, 0, false, 0⟩

/-- bread from bio.c: bget, then a device read when the buffer is invalid;
on device failure release the buffer lock and return NULL.  `readOk` is
the outcome of `virtio_disk_rw(b, 0)`. -/
def bread (c : Cache) (dev blockno : Nat) (readOk : Bool) : Option (Cache × Option Nat) :=
  match bget c dev blockno with
  | none => none
  | some (c1, none) => some (c1, none)
  | some (c1, some i) =>
    if (getBuf c1 i).valid then some (c1, some i)
    else if readOk then
      some (updateBuf c1 i (fun b => { b with valid := true }), some i)
    else
      some (updateBuf c1 i (fun b => { b with lockHeld := false }), none)

/-- bwrite from bio.c.  `pthread_mutex_trylock` succeeds exactly when the
lock is free; the code then returns false at once, keeping the lock it
just acquired.  When the lock is already held the trylock fails, the
device write runs and the lock is released.  Returns (new state, whether a
device write was issued, return value); `writeOk` is the outcome of
`virtio_disk_rw(b, 1)`. -/
def bwrite (c : Cache) (i : Nat) (writeOk : Bool) : Cache × Bool × Bool :=
  if (getBuf c i).lockHeld then
    (updateBuf c i (fun b => { b with lockHeld := false }), true, writeOk)
  else
    (updateBuf c i (fun b => { b with lockHeld := true }), false, false)

/-- brelse from bio.c: decrement refcnt under the cache lock; when it hits
0 unlink the buffer and reinsert it at head.next, then release the buffer
lock.  Callers release only buffers they hold (`Release a locked buffer`);
a brelse on an unheld buffer, or on an index not in the cache, is rejected
as an invalid serialized run. -/
def brelse (c : Cache) (i : Nat) : Option Cache :=
  match c.bufs.find? (fun b => b.idx = i) with
  | none => none
  | some b =>
    if b.lockHeld then
      let r := b.refcnt - 1
      if r = 0 then
        some ⟨{ b with refcnt := r, lockHeld := false, stamp := c.clock } ::
                c.bufs.filter (fun x => x.idx ≠ i), c.clock + 1⟩
      else
        some (updateBuf c i (fun x => { x with refcnt := r, lockHeld := false }))
    else none

/-- One serialized buffer-cache operation. -/
inductive COp where
  | bread (dev blockno : Nat) (readOk : Bool)
  | bget (dev blockno : Nat)
  | brelse (i : Nat)
deriving DecidableEq

/-- Effect of one operation on the cache state. -/
def cstep (c : Cache) : COp → Option Cache
  | .bread d bn ok => (bread c d bn ok).map (fun r => r.1)
  | .bget d bn => (bget c d bn).map (fun r => r.1)
  | .brelse i => brelse c i

/-- Run a serialized sequence of operations from the initial cache. -/
def crun (ops : List COp) : Option Cache :=
  ops.foldlM cstep cacheInit

/-- Run a sequence and record, for each bread, the returned buffer index
(`none` for a NULL return). -/
def crunTrace : List COp → Cache → Option (Cache × List (Option Nat))
  | [], c => some (c, [])
  | .bread d bn ok :: ops, c =>
    match bread c d bn ok with
    | none => none
    | some (c1, r) =>
      match crunTrace ops c1 with
      | none => none
      | some (c2, rs) => some (c2, r :: rs)
  | op :: ops, c =>
    match cstep c op with
    | none => none
    | some c1 => crunTrace ops c1

/-! ### Definitions used only to state the claims -/

/-- Smallest multiple of BSIZE not below n: the rounding the spec's words
describe ("rounded up to the next BSIZE multiple", "smallest multiple of
BSIZE not below that content size").  To be compared with what main
actually computes. -/
def specRoundUp (n : Nat) : Nat := (n + BSIZE - 1) / BSIZE * BSIZE

/-- Number of nonzero entries in an address array. -/
def nonzeroCount (l : List Nat) : Nat := l.countP (fun x => decide (x ≠ 0))

/-- 62 one-byte-named empty input files: the root directory content
(`.` + `..` + 62 dirents of 16 bytes) is then exactly 1024 = BSIZE bytes. -/
def files62 : List InputFile := List.replicate 62 ⟨[97], []⟩

/-- 14 input files of 100 bytes each (the spec's scenario 2): root content
is 256 bytes, not a BSIZE multiple. -/
def files14 : List InputFile := List.replicate 14 ⟨[97], List.replicate 100 55⟩

/-- A builder state whose allocation cursor has reached the end of the
image (reachable: `ballocN 4496 initState` has freeblock = FSSIZE). -/
def atEnd : BState := { initState with freeblock := FSSIZE }

/-- A builder state with the root inode at block 5 holding a file of the
given size with no data blocks assigned yet. -/
def stateOfSize (sz : Nat) : BState :=
  { freeblock := 6
    freeinode := 2
    imp := fun i => if i = 1 then 5 else 0
    impBlockNo := fun _ => 0
    disk := fun n => if n = 5 then
        .inodeBlk { dinode0 with type := T_FILE, nlink := 1, size := sz }
      else .zeros }

/-- Serialized scenario of spec §8.5: bread 9 distinct blocks, releasing
each before the next bread.  After init the LRU end (head.prev) is buffer
0, so the k-th bread takes buffer k-1, and the 9th takes buffer 0 again. -/
def ops9 : List COp :=
  [.bread 1 1 true, .brelse 0, .bread 1 2 true, .brelse 1,
   .bread 1 3 true, .brelse 2, .bread 1 4 true, .brelse 3,
   .bread 1 5 true, .brelse 4, .bread 1 6 true, .brelse 5,
   .bread 1 7 true, .brelse 6, .bread 1 8 true, .brelse 7,
   .bread 1 9 true]

/-- Serialized scenario of spec §8.6: bread 8 distinct blocks, releasing
none, pinning every buffer. -/
def ops8 : List COp :=
  [.bread 1 1 true, .bread 1 2 true, .bread 1 3 true, .bread 1 4 true,
   .bread 1 5 true, .bread 1 6 true, .bread 1 7 true, .bread 1 8 true]

/-- The cache with all NBUF buffers pinned, reached by ops8. -/
def cacheFull : Cache := (crun ops8).getD cacheInit

/-- The cache reached by the 9-block scenario. -/
def cache9 : Cache := (crun ops9).getD cacheInit

/-- A buffer is live for a client: pinned or holding valid block contents. -/
def activeBuf (b : KBuf) : Prop := 0 < b.refcnt ∨ b.valid = true

instance (b : KBuf) : Decidable (activeBuf b) := by
  unfold activeBuf
  infer_instance

/-- Root directory size of a completed build (0 when the build fails). -/
def rootSizeAfter (o : Option BState) : Option Nat :=
  o.map (fun s => (rinode s ROOTINO).size)

/-- Every block, read as a segment summary, carries SEGSIZE - 1 entries:
true of the zero-filled initial disk and preserved by every write. -/
def SummaryLenInv (s : BState) : Prop :=
  ∀ n : Nat, ((s.disk n).asSummary).length = SEGSIZE - 1

/-- Relation between an earlier buffer a and a later buffer b of the LRU
list: if they name the same (dev, blockno), the later one is not live
(neither pinned nor valid), and among unpinned buffers the later one was
released earlier (smaller ghost stamp). -/
def BufRel (a b : KBuf) : Prop :=
  (a.dev = b.dev → a.blockno = b.blockno → ¬ activeBuf b) ∧
  (a.refcnt = 0 → b.refcnt = 0 → b.stamp < a.stamp)

instance (a b : KBuf) : Decidable (BufRel a b) := by
  unfold BufRel
  infer_instance

/-- Invariant of every reachable serialized cache state: buffer identities
are distinct; refcnt is never negative, a held lock pins its buffer, ghost
stamps lie below the clock; and every earlier-later pair of the list
satisfies BufRel. -/
def CacheInv (c : Cache) : Prop :=
  (c.bufs.map KBuf.idx).Nodup ∧
  (∀ b ∈ c.bufs, 0 ≤ b.refcnt ∧ (b.lockHeld = true → 1 ≤ b.refcnt) ∧ b.stamp < c.clock) ∧
  c.bufs.Pairwise BufRel

/-! ## Theorems -/

/-- C10: for every buffer whose exclusive lock is not held by any thread
when bwrite is called, bwrite performs no device write, returns false, and
leaves the buffer's lock in the held state — the lock acquired by the
trylock check is never released on this path. -/
theorem C10_bwrite_on_unheld_lock (c : Cache) (i : Nat) (ok : Bool)
    (h : (getBuf c i).lockHeld = false) :
    (bwrite c i ok).2.1 = false ∧ (bwrite c i ok).2.2 = false ∧
    (bwrite c i ok).1 = updateBuf c i (fun b => { b with lockHeld := true }) ∧
    ∀ b ∈ (bwrite c i ok).1.bufs, b.idx = i → b.lockHeld = true := by
  have hb : bwrite c i ok
      = (updateBuf c i (fun b => { b with lockHeld := true }), false, false) := by
    unfold bwrite
    rw [h]
    simp
  refine ⟨by rw [hb], by rw [hb], by rw [hb], ?_⟩
  rw [hb]
  intro b hbm hidx
  simp only [updateBuf, List.mem_map] at hbm
  obtain ⟨x, hx, rfl⟩ := hbm
  by_cases hxi : x.idx = i
  · rw [if_pos hxi]
  · rw [if_neg hxi] at hidx ⊢
    exact absurd hidx hxi

/-- Witness for C10 at a concrete input: buffer 0 of the freshly
initialised cache has a free lock; bwrite writes nothing, returns false,
and leaves the lock held. -/
theorem C10_bwrite_on_unheld_lock_witness :
    (getBuf cacheInit 0).lockHeld = false ∧
    (bwrite cacheInit 0 true).2.1 = false ∧ (bwrite cacheInit 0 true).2.2 = false ∧
    ∀ b ∈ (bwrite cacheInit 0 true).1.bufs, b.idx = 0 → b.lockHeld = true := by
  have h := C10_bwrite_on_unheld_lock cacheInit 0 true (by decide)
  exact ⟨by decide, h.1, h.2.1, h.2.2.2⟩

/-- C9: in any cache state where every buffer is pinned (refcnt > 0) and
the requested (dev, blockno) is not present, bread returns NULL and the
cache — every field of every buffer and the list order — is unchanged. -/
theorem C9_bread_all_pinned (c : Cache) (dev blockno : Nat) (ok : Bool)
    (hpin : ∀ b ∈ c.bufs, 0 < b.refcnt)
    (hmiss : ∀ b ∈ c.bufs, ¬(b.dev = dev ∧ b.blockno = blockno)) :
    bread c dev blockno ok = some (c, none) := by
  have h1 : c.bufs.find? (fun b => b.dev = dev && b.blockno = blockno) = none := by
    rw [List.find?_eq_none]
    intro x hx
    simp only [Bool.and_eq_true, decide_eq_true_eq, not_and]
    intro hd hb
    exact hmiss x hx ⟨hd, hb⟩
  have h2 : c.bufs.reverse.find? (fun b => b.refcnt = 0) = none := by
    rw [List.find?_eq_none]
    intro x hx
    have := hpin x (List.mem_reverse.mp hx)
    simp only [decide_eq_true_eq]
    omega
  have hget : bget c dev blockno = some (c, none) := by
    unfold bget
    rw [h1, h2]
  unfold bread
  rw [hget]

/-- Witness for C9 at a concrete input: the cache after 8 un-released
breads is fully pinned; a 9th request returns NULL leaving it unchanged. -/
theorem C9_bread_all_pinned_witness :
    bread cacheFull 1 9 true = some (cacheFull, none) :=
  C9_bread_all_pinned cacheFull 1 9 true (by decide) (by decide)

/-- Freeinode advances by one per ialloc call. -/
theorem iallocN_freeinode (n : Nat) : ∀ s : BState,
    (iallocN n s).freeinode = s.freeinode + n := by
  induction n with
  | zero => intro s; rfl
  | succ k ih =>
    intro s
    show (iallocN k (ialloc s T_FILE).1).freeinode = s.freeinode + (k + 1)
    rw [ih]
    show s.freeinode + 1 + k = s.freeinode + (k + 1)
    omega

/-- The allocation cursor never moves below NMETA. -/
theorem iallocN_freeblock_ge (n : Nat) : ∀ s : BState, NMETA ≤ s.freeblock →
    NMETA ≤ (iallocN n s).freeblock := by
  induction n with
  | zero => intro s h; exact h
  | succ k ih =>
    intro s h
    refine ih ((ialloc s T_FILE).1) ?_
    show NMETA ≤ ballocNext s.freeblock + 1
    unfold ballocNext
    split <;> omega

/-- C4 (the code at the failing input): after 199 ialloc calls freeinode
equals NINODES; the 200th call does not abort — it returns inode number
NINODES and records a block number (at least NMETA, hence nonzero) in
imp[NINODES], one slot past the end of `uint imp[NINODES]`. -/
theorem C4_ialloc_overflow :
    (iallocN 199 initState).freeinode = NINODES ∧
    (ialloc (iallocN 199 initState) T_FILE).2 = NINODES ∧
    NMETA ≤ (ialloc (iallocN 199 initState) T_FILE).1.imp NINODES := by
  have hfi : (iallocN 199 initState).freeinode = NINODES := by
    rw [iallocN_freeinode]
    decide
  have hfb : NMETA ≤ (iallocN 199 initState).freeblock :=
    iallocN_freeblock_ge 199 initState (by decide)
  refine ⟨hfi, hfi, ?_⟩
  have himp : (ialloc (iallocN 199 initState) T_FILE).1.imp
      ((iallocN 199 initState).freeinode)
      = ballocNext (iallocN 199 initState).freeblock := by
    show (if (iallocN 199 initState).freeinode = (iallocN 199 initState).freeinode
        then ballocNext (iallocN 199 initState).freeblock
        else (balloc { iallocN 199 initState with
          freeinode := (iallocN 199 initState).freeinode + 1 } SEGSUM_INODE
          ((iallocN 199 initState).freeinode) 0).1.imp
            ((iallocN 199 initState).freeinode))
      = ballocNext (iallocN 199 initState).freeblock
    rw [if_pos rfl]
  rw [← hfi, himp]
  unfold ballocNext
  split <;> omega

/-- Freeblock cursor after n balloc calls, as pure cursor arithmetic. -/
theorem ballocN_freeblock (n : Nat) : ∀ s : BState,
    (ballocN n s).freeblock = cursorN n s.freeblock := by
  induction n with
  | zero => intro s; rfl
  | succ k ih =>
    intro s
    show (ballocN k (balloc s SEGSUM_DATA 1 0).1).freeblock
      = cursorN k (cursorStep s.freeblock)
    rw [ih]
    rfl

/-- Iterating the cursor one more time steps the last value. -/
theorem cursorN_succ (n : Nat) : ∀ fb : Nat,
    cursorN (n + 1) fb = cursorStep (cursorN n fb) := by
  induction n with
  | zero => intro fb; rfl
  | succ k ih =>
    intro fb
    show cursorN (k + 1) (cursorStep fb) = cursorStep (cursorN (k + 1) fb)
    rw [ih]
    rfl

/-- Closed form of the cursor after n balloc calls from the initial
segment-aligned position: n data blocks plus one summary skip per
started group of 9. -/
theorem cursorN_closed (n : Nat) :
    cursorN n NMETA = NMETA + n + (n + 8) / 9 := by
  induction n with
  | zero => rfl
  | succ k ih =>
    rw [cursorN_succ, ih]
    unfold cursorStep ballocNext
    simp only [NMETA, SEGSIZE]
    split <;> omega

/-- C5 counterexample: a reachable builder state (4496 balloc calls from
the initial state) has freeblock = FSSIZE, and the next balloc does not
fail — it returns block number FSSIZE, one past the end of the image. -/
theorem C5_counterexample :
    (ballocN 4496 initState).freeblock = FSSIZE ∧
    (balloc (ballocN 4496 initState) SEGSUM_DATA 1 0).2 = FSSIZE := by
  have h1 : (ballocN 4496 initState).freeblock = FSSIZE := by
    rw [ballocN_freeblock]
    show cursorN 4496 NMETA = FSSIZE
    rw [cursorN_closed]
    decide
  refine ⟨h1, ?_⟩
  generalize hS : ballocN 4496 initState = S at h1 ⊢
  show ballocNext S.freeblock = FSSIZE
  rw [h1]
  decide

/-- C5 amended: balloc has no bound check against FSSIZE; from any state
whose cursor is at or past FSSIZE it succeeds and returns a block number
at or past FSSIZE (writing beyond the declared image size) instead of
failing. -/
theorem C5_balloc_no_fssize_check (s : BState) (t i b : Nat)
    (h : FSSIZE ≤ s.freeblock) :
    FSSIZE ≤ (balloc s t i b).2 := by
  have h2 : (balloc s t i b).2 = ballocNext s.freeblock := rfl
  rw [h2]
  unfold ballocNext
  split <;> omega

/-- Witness for the amended C5 at a concrete input. -/
theorem C5_balloc_no_fssize_check_witness :
    FSSIZE ≤ (balloc atEnd SEGSUM_DATA 1 0).2 :=
  C5_balloc_no_fssize_check atEnd SEGSUM_DATA 1 0 (by decide)

/-- Writing an inode and reading it back through the same imap slot yields
the written dinode. -/
theorem rinode_winode (s : BState) (i : Nat) (d : Dinode) :
    rinode (winode s i d) i = d := by
  show (if s.imp i = s.imp i then Block.inodeBlk d else s.disk (s.imp i)).asDinode = d
  rw [if_pos rfl]
  rfl

/-- C6 counterexample: a successful build from 62 files whose root
directory content is 32 + 16 * 62 = 1024 = BSIZE bytes ends with root size
2048, not the smallest BSIZE multiple not below the content size, which is
1024. -/
theorem C6_counterexample :
    rootSizeAfter (buildDirs files62) = some (32 + 16 * 62) ∧
    32 + 16 * 62 = BSIZE ∧
    rootSizeAfter (build files62) = some 2048 ∧
    specRoundUp (32 + 16 * 62) = BSIZE ∧ (2048 : Nat) ≠ BSIZE :=
  ⟨by decide, by decide, by decide, by decide, by decide⟩

/-- C6 amended: main's fixup sets the root size to
`((size / BSIZE) + 1) * BSIZE`, the smallest BSIZE multiple strictly
greater than the content size.  When the content size is not a BSIZE
multiple this is the smallest multiple not below it (the claim's rounding);
when it is already a multiple, one extra full block is added.  On the
spec's own 14-file scenario (content 256 bytes) the result is 1024. -/
theorem C6_root_size_fixup :
    (∀ s3 : BState,
      (rinode (winode s3 ROOTINO
          { rinode s3 ROOTINO with
            size := ((rinode s3 ROOTINO).size / BSIZE + 1) * BSIZE }) ROOTINO).size
        = ((rinode s3 ROOTINO).size / BSIZE + 1) * BSIZE) ∧
    (∀ sz : Nat, sz % BSIZE ≠ 0 → (sz / BSIZE + 1) * BSIZE = specRoundUp sz) ∧
    (∀ sz : Nat, sz % BSIZE = 0 → (sz / BSIZE + 1) * BSIZE = sz + BSIZE) ∧
    rootSizeAfter (build files14) = some 1024 := by
  refine ⟨?_, ?_, ?_, by decide⟩
  · intro s3
    rw [rinode_winode]
  · intro sz h
    simp only [specRoundUp, BSIZE] at h ⊢
    omega
  · intro sz h
    simp only [BSIZE] at h ⊢
    omega

/-- Setting one list slot leaves the other slots unchanged. -/
theorem getD_set_ne {α : Type} (l : List α) (ii jj : Nat) (a d : α) (h : ii ≠ jj) :
    (l.set ii a).getD jj d = l.getD jj d := by
  simp [List.getD, List.getElem?_set_ne h]

/-- Setting a slot in range stores the value there. -/
theorem getD_set_self {α : Type} (l : List α) (ii : Nat) (a d : α) (h : ii < l.length) :
    (l.set ii a).getD ii d = a := by
  simp [List.getD, List.getElem?_set_eq_of_lt a h]

/-- The bit-setting fold of wchkpt keeps the byte-array length. -/
theorem segtable_foldl_length (u : Nat) (t : List Nat) :
    ((List.range u).foldl
      (fun tt i => tt.set (i / 8) (tt.getD (i / 8) 0 ||| (1 <<< (i % 8)))) t).length
    = t.length := by
  induction u generalizing t with
  | zero => rfl
  | succ k ih =>
    rw [List.range_succ, List.foldl_append, List.foldl_cons, List.foldl_nil,
      List.length_set]
    exact ih t

/-- Bits produced by the wchkpt loop: bit j is set exactly when j < u or it
was already set, provided every touched byte index is within the array. -/
theorem segtable_foldl_bit (u : Nat) (t : List Nat) (hlen : ∀ i, i < u → i / 8 < t.length) :
    ∀ j : Nat, segtableBit ((List.range u).foldl
        (fun tt i => tt.set (i / 8) (tt.getD (i / 8) 0 ||| (1 <<< (i % 8)))) t) j = true
      ↔ (j < u ∨ segtableBit t j = true) := by
  induction u with
  | zero =>
    intro j
    simp [List.range_zero, List.foldl_nil]
  | succ k ih =>
    intro j
    rw [List.range_succ, List.foldl_append, List.foldl_cons, List.foldl_nil]
    have hlen' : ∀ i, i < k → i / 8 < t.length := fun i hi => hlen i (by omega)
    have hTlen : ((List.range k).foldl
        (fun tt i => tt.set (i / 8) (tt.getD (i / 8) 0 ||| (1 <<< (i % 8)))) t).length
        = t.length := segtable_foldl_length k t
    by_cases hq : j / 8 = k / 8
    · unfold segtableBit
      rw [hq, getD_set_self _ _ _ _ (by rw [hTlen]; exact hlen k (by omega))]
      rw [Nat.testBit_or, Nat.one_shiftLeft, Nat.testBit_two_pow]
      have hik := ih hlen' j
      unfold segtableBit at hik
      rw [hq] at hik
      constructor
      · intro hl
        rcases Bool.or_eq_true_iff.mp hl with hl | hl
        · rcases hik.mp hl with hx | hx
          · exact Or.inl (by omega)
          · exact Or.inr hx
        · have : k % 8 = j % 8 := of_decide_eq_true hl
          have : j = k := by omega
          exact Or.inl (by omega)
      · intro hr
        rcases hr with hr | hr
        · by_cases hjk : j = k
          · refine Bool.or_eq_true_iff.mpr (Or.inr ?_)
            subst hjk
            simp
          · exact Bool.or_eq_true_iff.mpr (Or.inl (hik.mpr (Or.inl (by omega))))
        · exact Bool.or_eq_true_iff.mpr (Or.inl (hik.mpr (Or.inr hr)))
    · unfold segtableBit
      rw [getD_set_ne _ _ _ _ _ (fun hc => hq hc.symm)]
      have hik := ih hlen' j
      unfold segtableBit at hik
      rw [hik]
      constructor
      · intro hr
        rcases hr with hr | hr
        · exact Or.inl (by omega)
        · exact Or.inr hr
      · intro hr
        rcases hr with hr | hr
        · refine Or.inl ?_
          have : j ≠ k := fun hc => hq (by rw [hc])
          omega
        · exact Or.inr hr

/-- Bit j of the segment table written by wchkpt is set exactly for j < u. -/
theorem mkSegtable_bit (u : Nat) (hu : u ≤ 512) (j : Nat) :
    segtableBit (mkSegtable u) j = true ↔ j < u := by
  unfold mkSegtable
  rw [segtable_foldl_bit u (List.replicate SEGTABLESIZE 0)
    (by intro i hi; simp only [List.length_replicate, SEGTABLESIZE, NSEG, FSSIZE, NMETA,
          SEGSIZE]; omega)]
  have hz : segtableBit (List.replicate SEGTABLESIZE 0) j = false := by
    unfold segtableBit
    have : (List.replicate SEGTABLESIZE (0 : Nat)).getD (j / 8) 0 = 0 := by
      simp only [List.getD]
      rw [List.get?_eq_getElem?, List.getElem?_replicate]
      split <;> rfl
    rw [this]
    exact Nat.zero_testBit (j % 8)
  rw [hz]
  simp

/-- C3: wchkpt(n) writes only block 1 + n.  Checkpoint 1 (block 2) holds
the imap block addresses imp_block_no[], timestamp 1, and a segment-usage
bitmap whose bit j is set exactly when segment j contains a block below
the allocation cursor; checkpoint 2 (block 3) is all zeros, its timestamp
reads as 0, and the newer-timestamp rule (spec-modelled selectChkpt)
selects checkpoint 1. -/
theorem C3_wchkpt (s : BState) (hfb : s.freeblock ≤ FSSIZE) :
    (∀ n m : Nat, m ≠ 1 + n → (wchkpt s n).disk m = s.disk m) ∧
    (∀ i : Nat, i < NINODEMAP →
      ((wchkpt s 1).disk 2).asChkpt.imap.getD i 0 = s.impBlockNo i) ∧
    (((wchkpt s 1).disk 2).asChkpt.timestamp = 1) ∧
    (∀ j : Nat, j < NSEG →
      (segtableBit (((wchkpt s 1).disk 2).asChkpt.segtable) j = true
        ↔ NMETA + j * SEGSIZE < s.freeblock)) ∧
    ((wchkpt s 2).disk 3 = Block.zeros) ∧
    (((wchkpt s 2).disk 3).asChkpt.timestamp = 0) ∧
    (selectChkpt (((wchkpt (wchkpt s 1) 2).disk 2).asChkpt.timestamp)
      (((wchkpt (wchkpt s 1) 2).disk 3).asChkpt.timestamp) = 1) := by
  have h1 : (wchkpt s 1).disk 2 = Block.chkptBlk
      ⟨(List.range NINODEMAP).map s.impBlockNo,
        mkSegtable ((s.freeblock - NMETA + SEGSIZE - 1) / SEGSIZE), 1⟩ := rfl
  have h3 : (wchkpt (wchkpt s 1) 2).disk 2 = (wchkpt s 1).disk 2 := rfl
  refine ⟨?_, ?_, ?_, ?_, rfl, rfl, ?_⟩
  · intro n m hm
    unfold wchkpt wsect
    split <;> simp only [if_neg hm]
  · intro i hi
    rw [h1]
    show ((List.range NINODEMAP).map s.impBlockNo).getD i 0 = s.impBlockNo i
    simp [List.getD, List.get?_eq_getElem?, List.getElem?_map, List.getElem?_range hi]
  · rw [h1]
    rfl
  · intro j hj
    rw [h1]
    show segtableBit (mkSegtable ((s.freeblock - NMETA + SEGSIZE - 1) / SEGSIZE)) j = true
      ↔ NMETA + j * SEGSIZE < s.freeblock
    rw [mkSegtable_bit _ (by simp only [NMETA, SEGSIZE, FSSIZE] at hfb ⊢; omega) j]
    simp only [NMETA, SEGSIZE] at hj ⊢
    simp only [NSEG, FSSIZE, NMETA, SEGSIZE] at hj
    omega
  · rw [h3, h1]
    rfl

/-- Witness for C3 at a concrete input: the initial builder state. -/
theorem C3_wchkpt_witness :
    ((wchkpt initState 1).disk 5 = initState.disk 5) ∧
    (((wchkpt initState 1).disk 2).asChkpt.imap.getD 0 0 = initState.impBlockNo 0) ∧
    (((wchkpt initState 1).disk 2).asChkpt.timestamp = 1) ∧
    (segtableBit (((wchkpt initState 1).disk 2).asChkpt.segtable) 0 = true
      ↔ NMETA + 0 * SEGSIZE < initState.freeblock) ∧
    ((wchkpt initState 2).disk 3 = Block.zeros) ∧
    (selectChkpt (((wchkpt (wchkpt initState 1) 2).disk 2).asChkpt.timestamp)
      (((wchkpt (wchkpt initState 1) 2).disk 3).asChkpt.timestamp) = 1) := by
  have h := C3_wchkpt initState (by decide)
  exact ⟨h.1 1 5 (by decide), h.2.1 0 (by decide), h.2.2.1,
    h.2.2.2.1 0 (by decide), h.2.2.2.2.1, h.2.2.2.2.2.2⟩

/-- Witness for the amended C6 at concrete inputs. -/
theorem C6_root_size_fixup_witness :
    (rinode (winode (stateOfSize 100) ROOTINO
        { rinode (stateOfSize 100) ROOTINO with
          size := ((rinode (stateOfSize 100) ROOTINO).size / BSIZE + 1) * BSIZE })
        ROOTINO).size
      = ((rinode (stateOfSize 100) ROOTINO).size / BSIZE + 1) * BSIZE ∧
    (256 / BSIZE + 1) * BSIZE = specRoundUp 256 ∧
    (1024 / BSIZE + 1) * BSIZE = 1024 + BSIZE := by
  have h := C6_root_size_fixup
  exact ⟨h.1 (stateOfSize 100), h.2.1 256 (by decide), h.2.2.1 1024 (by decide)⟩

/-- The skip never moves the cursor backwards. -/
theorem ballocNext_ge (fb : Nat) : fb ≤ ballocNext fb := by
  unfold ballocNext
  split <;> omega

/-- After the skip the cursor is never on a segment-summary block. -/
theorem ballocNext_mod (fb : Nat) (h : NMETA ≤ fb) :
    (ballocNext fb - NMETA) % SEGSIZE ≠ 0 := by
  unfold ballocNext
  simp only [NMETA, SEGSIZE] at h ⊢
  split <;> omega

/-- Pointwise disk contents after one balloc: only the summary block of
the allocated block's segment changes, receiving the new entry. -/
theorem balloc_disk_at (s : BState) (t i b n : Nat) :
    (balloc s t i b).1.disk n =
      if n = NMETA + SEGNO (ballocNext s.freeblock) * SEGSIZE
      then Block.summary
        (((s.disk (NMETA + SEGNO (ballocNext s.freeblock) * SEGSIZE)).asSummary).set
          (ballocNext s.freeblock - (NMETA + SEGNO (ballocNext s.freeblock) * SEGSIZE) - 1)
          ⟨t, i, b⟩)
      else s.disk n := rfl

/-- One balloc call: the summary-length invariant is preserved, the
returned block's summary entry equals the passed triple, and the entry of
every previously allocated (non-summary, below-cursor) block is
untouched. -/
theorem balloc_step (s : BState) (t i b : Nat) (hfb : NMETA ≤ s.freeblock)
    (hlen : SummaryLenInv s) :
    SummaryLenInv (balloc s t i b).1 ∧
    summaryEntryFor (balloc s t i b).1.disk (ballocNext s.freeblock) = ⟨t, i, b⟩ ∧
    (∀ b0 : Nat, NMETA ≤ b0 → b0 < s.freeblock → (b0 - NMETA) % SEGSIZE ≠ 0 →
      summaryEntryFor (balloc s t i b).1.disk b0 = summaryEntryFor s.disk b0) := by
  have hge : s.freeblock ≤ ballocNext s.freeblock := ballocNext_ge _
  have hmod : (ballocNext s.freeblock - NMETA) % SEGSIZE ≠ 0 := ballocNext_mod _ hfb
  refine ⟨?_, ?_, ?_⟩
  · intro n
    rw [balloc_disk_at]
    by_cases hn : n = NMETA + SEGNO (ballocNext s.freeblock) * SEGSIZE
    · rw [if_pos hn]
      show (((s.disk (NMETA + SEGNO (ballocNext s.freeblock) * SEGSIZE)).asSummary).set
        (ballocNext s.freeblock - (NMETA + SEGNO (ballocNext s.freeblock) * SEGSIZE) - 1)
        ⟨t, i, b⟩).length = SEGSIZE - 1
      rw [List.length_set]
      exact hlen _
    · rw [if_neg hn]
      exact hlen n
  · unfold summaryEntryFor
    rw [balloc_disk_at, if_pos rfl]
    show (((s.disk (NMETA + SEGNO (ballocNext s.freeblock) * SEGSIZE)).asSummary).set
        (ballocNext s.freeblock - (NMETA + SEGNO (ballocNext s.freeblock) * SEGSIZE) - 1)
        ⟨t, i, b⟩).getD
        (ballocNext s.freeblock - (NMETA + SEGNO (ballocNext s.freeblock) * SEGSIZE) - 1)
        emptyEntry = ⟨t, i, b⟩
    refine getD_set_self _ _ _ _ ?_
    rw [hlen]
    have hh := hmod
    have hh2 := hfb
    unfold SEGNO
    simp only [NMETA, SEGSIZE] at hh hh2 ⊢
    omega
  · intro b0 h4 hlt hm0
    unfold summaryEntryFor
    rw [balloc_disk_at]
    by_cases hbb : NMETA + SEGNO b0 * SEGSIZE
        = NMETA + SEGNO (ballocNext s.freeblock) * SEGSIZE
    · rw [if_pos hbb]
      show (((s.disk (NMETA + SEGNO (ballocNext s.freeblock) * SEGSIZE)).asSummary).set
          (ballocNext s.freeblock - (NMETA + SEGNO (ballocNext s.freeblock) * SEGSIZE) - 1)
          ⟨t, i, b⟩).getD (b0 - (NMETA + SEGNO b0 * SEGSIZE) - 1) emptyEntry
        = ((s.disk (NMETA + SEGNO b0 * SEGSIZE)).asSummary).getD
            (b0 - (NMETA + SEGNO b0 * SEGSIZE) - 1) emptyEntry
      rw [getD_set_ne _ _ _ _ _ ?ne, hbb]
      case ne =>
        have hbb2 := hbb
        have hge2 := hge
        have hmod2 := hmod
        unfold SEGNO at hbb2 ⊢
        simp only [NMETA, SEGSIZE] at hbb2 hm0 h4 hlt hmod2 ⊢
        omega
    · rw [if_neg hbb]

/-- A run of balloc calls: the cursor only grows, the length invariant is
kept, every returned block is a non-summary block in [start, end-cursor)
with its summary entry equal to the triple of its call, the returned
blocks strictly increase, and entries of blocks allocated before the run
are untouched. -/
theorem ballocRun_spec (rs : List SegEntry) : ∀ s : BState,
    NMETA ≤ s.freeblock → SummaryLenInv s →
    (s.freeblock ≤ (ballocRun rs s).1.freeblock ∧
     SummaryLenInv (ballocRun rs s).1) ∧
    (∀ x ∈ (ballocRun rs s).2,
      NMETA ≤ x ∧ s.freeblock ≤ x ∧ x < (ballocRun rs s).1.freeblock ∧
      (x - NMETA) % SEGSIZE ≠ 0) ∧
    List.Forall₂ (fun r x => summaryEntryFor (ballocRun rs s).1.disk x = r)
      rs (ballocRun rs s).2 ∧
    List.Pairwise (fun x y => x < y) (ballocRun rs s).2 ∧
    (∀ b0 : Nat, NMETA ≤ b0 → b0 < s.freeblock → (b0 - NMETA) % SEGSIZE ≠ 0 →
      summaryEntryFor (ballocRun rs s).1.disk b0 = summaryEntryFor s.disk b0) := by
  induction rs with
  | nil =>
    intro s hfb hlen
    refine ⟨⟨le_refl _, hlen⟩, ?_, List.Forall₂.nil, List.Pairwise.nil, ?_⟩
    · intro x hx
      cases hx
    · intro b0 _ _ _
      rfl
  | cons r rs ih =>
    intro s hfb hlen
    have hstep := balloc_step s r.block_type r.inum r.block_no hfb hlen
    have hfb1 : (balloc s r.block_type r.inum r.block_no).1.freeblock
        = ballocNext s.freeblock + 1 := rfl
    have hge : s.freeblock ≤ ballocNext s.freeblock := ballocNext_ge _
    have hfbnew : NMETA ≤ (balloc s r.block_type r.inum r.block_no).1.freeblock := by
      rw [hfb1]
      omega
    have hih := ih (balloc s r.block_type r.inum r.block_no).1 hfbnew hstep.1
    obtain ⟨⟨hmono, hleninv⟩, hmem, hfa, hpw, hpres⟩ := hih
    rw [hfb1] at hmono
    have hq1 : (ballocRun (r :: rs) s).1
        = (ballocRun rs (balloc s r.block_type r.inum r.block_no).1).1 := rfl
    have hq2 : (ballocRun (r :: rs) s).2
        = ballocNext s.freeblock
          :: (ballocRun rs (balloc s r.block_type r.inum r.block_no).1).2 := rfl
    rw [hq1, hq2]
    have hheadpres := hpres (ballocNext s.freeblock) (by omega)
      (by rw [hfb1]; omega) (ballocNext_mod _ hfb)
    refine ⟨⟨by omega, hleninv⟩, ?_, ?_, ?_, ?_⟩
    · intro x hx
      rcases List.mem_cons.mp hx with hx | hx
      · subst hx
        exact ⟨by omega, hge, by omega, ballocNext_mod _ hfb⟩
      · have hm := hmem x hx
        rw [hfb1] at hm
        exact ⟨hm.1, by omega, hm.2.2.1, hm.2.2.2⟩
    · refine List.Forall₂.cons ?_ hfa
      rw [hheadpres, hstep.2.1]
    · refine List.Pairwise.cons ?_ hpw
      intro y hy
      have hm := hmem y hy
      rw [hfb1] at hm
      omega
    · intro b0 h1 h2 h3
      have e1 := hstep.2.2 b0 h1 h2 h3
      have e2 := hpres b0 h1 (by rw [hfb1]; omega) h3
      rw [e2, e1]

/-- Bytes consumed by one loop iteration: what fits in the current block. -/
theorem iappendBody_n1 (inum : Nat) (s : BState) (din : Dinode) (off : Nat)
    (p : List Nat) :
    (iappendBody inum s din off p).2.2
      = min p.length ((off / BSIZE + 1) * BSIZE - off) := rfl

/-- The dinode after one iteration in the direct regime: at most the
touched direct slot changes. -/
theorem iappendBody_din_direct (inum : Nat) (s : BState) (din : Dinode)
    (off : Nat) (p : List Nat) (h : off / BSIZE < NDIRECT) :
    (iappendBody inum s din off p).2.1
      = if din.addrs.getD (off / BSIZE) 0 = 0
        then { din with addrs := din.addrs.set (off / BSIZE) (ballocNext s.freeblock) }
        else din := by
  simp only [iappendBody]
  rw [if_pos h]
  split <;> rfl

/-- At least one byte is consumed per iteration. -/
theorem n1_pos (off : Nat) (p : List Nat) (hp : p ≠ []) :
    1 ≤ min p.length ((off / BSIZE + 1) * BSIZE - off) := by
  have h2 := Nat.div_add_mod off BSIZE
  have h3 : off % BSIZE < BSIZE := Nat.mod_lt _ (by decide)
  have hl : 0 < p.length := List.length_pos.mpr hp
  simp only [BSIZE] at h2 h3 ⊢
  omega

/-- Writes never reach past the end of the current block. -/
theorem n1_le_gap (off : Nat) (p : List Nat) :
    min p.length ((off / BSIZE + 1) * BSIZE - off) ≤ (off / BSIZE + 1) * BSIZE - off :=
  Nat.min_le_right _ _

/-- Appends that stay within the direct region always succeed, advance the
size by the byte count, and never touch the indirect slot. -/
theorem iappendLoop_direct (inum : Nat) : ∀ (fuel : Nat) (s : BState) (din : Dinode)
    (off : Nat) (p : List Nat), p.length ≤ fuel →
    off + p.length ≤ NDIRECT * BSIZE →
    ∃ s1 din1, iappendLoop inum fuel s din off p = some (s1, din1, off + p.length) ∧
      din1.addrs.getD NDIRECT 0 = din.addrs.getD NDIRECT 0 := by
  intro fuel
  induction fuel with
  | zero =>
    intro s din off p hf hb
    cases p with
    | nil => exact ⟨s, din, by simp [iappendLoop], rfl⟩
    | cons c cs => simp at hf
  | succ k ih =>
    intro s din off p hf hb
    cases p with
    | nil => exact ⟨s, din, by simp [iappendLoop], rfl⟩
    | cons c cs =>
      have hpl : (c :: cs).length = cs.length + 1 := List.length_cons c cs
      have hoff : off < NDIRECT * BSIZE := by
        rw [hpl] at hb
        omega
      have hfbn : off / BSIZE < NDIRECT := by
        simp only [NDIRECT, BSIZE] at hoff ⊢
        omega
      have hmax : off / BSIZE < MAXFILE := by
        simp only [NDIRECT] at hfbn
        simp only [MAXFILE, NDIRECT, NINDIRECT, BSIZE] at hfbn ⊢
        omega
      have hn1eq := iappendBody_n1 inum s din off (c :: cs)
      have hn1pos : 1 ≤ (iappendBody inum s din off (c :: cs)).2.2 := by
        rw [hn1eq]
        exact n1_pos off _ (by simp)
      have hn1len : (iappendBody inum s din off (c :: cs)).2.2 ≤ (c :: cs).length := by
        rw [hn1eq]
        exact Nat.min_le_left _ _
      have hfuel : ((c :: cs).drop ((iappendBody inum s din off (c :: cs)).2.2)).length ≤ k := by
        rw [List.length_drop, hpl]
        rw [hpl] at hf
        omega
      have hbound : (off + (iappendBody inum s din off (c :: cs)).2.2)
          + ((c :: cs).drop ((iappendBody inum s din off (c :: cs)).2.2)).length
          ≤ NDIRECT * BSIZE := by
        rw [List.length_drop]
        omega
      obtain ⟨s1, din1, heq, hpres⟩ := ih (iappendBody inum s din off (c :: cs)).1
        (iappendBody inum s din off (c :: cs)).2.1
        (off + (iappendBody inum s din off (c :: cs)).2.2)
        ((c :: cs).drop ((iappendBody inum s din off (c :: cs)).2.2)) hfuel
        (by rw [List.length_drop] at hbound ⊢; omega)
      refine ⟨s1, din1, ?_, ?_⟩
      · simp only [iappendLoop]
        rw [if_pos hmax]
        rw [List.length_drop] at heq
        have E : off + (iappendBody inum s din off (c :: cs)).2.2
            + ((c :: cs).length - (iappendBody inum s din off (c :: cs)).2.2)
            = off + (c :: cs).length := by omega
        rw [E] at heq
        exact heq
      · rw [hpres, iappendBody_din_direct inum s din off (c :: cs) hfbn]
        split
        · show (din.addrs.set (off / BSIZE) (ballocNext s.freeblock)).getD NDIRECT 0
            = din.addrs.getD NDIRECT 0
          exact getD_set_ne _ _ _ _ _ (by omega)
        · rfl

/-- Appends whose end stays within MAXFILE blocks always succeed and
advance the offset by the byte count. -/
theorem iappendLoop_total (inum : Nat) : ∀ (fuel : Nat) (s : BState) (din : Dinode)
    (off : Nat) (p : List Nat), p.length ≤ fuel →
    off + p.length ≤ MAXFILE * BSIZE →
    ∃ s1 din1, iappendLoop inum fuel s din off p = some (s1, din1, off + p.length) := by
  intro fuel
  induction fuel with
  | zero =>
    intro s din off p hf hb
    cases p with
    | nil => exact ⟨s, din, by simp [iappendLoop]⟩
    | cons c cs => simp at hf
  | succ k ih =>
    intro s din off p hf hb
    cases p with
    | nil => exact ⟨s, din, by simp [iappendLoop]⟩
    | cons c cs =>
      have hpl : (c :: cs).length = cs.length + 1 := List.length_cons c cs
      have hoff : off < MAXFILE * BSIZE := by
        rw [hpl] at hb
        omega
      have hmax : off / BSIZE < MAXFILE := by
        simp only [MAXFILE, NDIRECT, NINDIRECT, BSIZE] at hoff ⊢
        omega
      have hn1eq := iappendBody_n1 inum s din off (c :: cs)
      have hn1pos : 1 ≤ (iappendBody inum s din off (c :: cs)).2.2 := by
        rw [hn1eq]
        exact n1_pos off _ (by simp)
      have hn1len : (iappendBody inum s din off (c :: cs)).2.2 ≤ (c :: cs).length := by
        rw [hn1eq]
        exact Nat.min_le_left _ _
      have hfuel : ((c :: cs).drop ((iappendBody inum s din off (c :: cs)).2.2)).length ≤ k := by
        rw [List.length_drop, hpl]
        rw [hpl] at hf
        omega
      obtain ⟨s1, din1, heq⟩ := ih (iappendBody inum s din off (c :: cs)).1
        (iappendBody inum s din off (c :: cs)).2.1
        (off + (iappendBody inum s din off (c :: cs)).2.2)
        ((c :: cs).drop ((iappendBody inum s din off (c :: cs)).2.2)) hfuel
        (by rw [List.length_drop]; omega)
      refine ⟨s1, din1, ?_⟩
      simp only [iappendLoop]
      rw [if_pos hmax]
      rw [List.length_drop] at heq
      have E : off + (iappendBody inum s din off (c :: cs)).2.2
          + ((c :: cs).length - (iappendBody inum s din off (c :: cs)).2.2)
          = off + (c :: cs).length := by omega
      rw [E] at heq
      exact heq

/-- An append that would end past MAXFILE blocks runs the loop until the
offset reaches the limit with bytes remaining, then the fbn < MAXFILE
assertion fails. -/
theorem iappendLoop_overflow (inum : Nat) : ∀ (fuel : Nat) (s : BState) (din : Dinode)
    (off : Nat) (p : List Nat), p.length ≤ fuel → p ≠ [] →
    MAXFILE * BSIZE < off + p.length →
    iappendLoop inum fuel s din off p = none := by
  intro fuel
  induction fuel with
  | zero =>
    intro s din off p hf hp hb
    cases p with
    | nil => exact absurd rfl hp
    | cons c cs => simp at hf
  | succ k ih =>
    intro s din off p hf hp hb
    cases p with
    | nil => exact absurd rfl hp
    | cons c cs =>
      have hpl : (c :: cs).length = cs.length + 1 := List.length_cons c cs
      by_cases hmax : off / BSIZE < MAXFILE
      · have hgap : (off / BSIZE + 1) * BSIZE ≤ MAXFILE * BSIZE := by
          simp only [MAXFILE, NDIRECT, NINDIRECT, BSIZE] at hmax ⊢
          omega
        have hgap2 : off ≤ (off / BSIZE + 1) * BSIZE := by
          have h2 := Nat.div_add_mod off BSIZE
          have h3 : off % BSIZE < BSIZE := Nat.mod_lt _ (by decide)
          simp only [BSIZE] at h2 h3 ⊢
          omega
        have hn1eq := iappendBody_n1 inum s din off (c :: cs)
        have hn1pos : 1 ≤ (iappendBody inum s din off (c :: cs)).2.2 := by
          rw [hn1eq]
          exact n1_pos off _ (by simp)
        have hn1gap : (iappendBody inum s din off (c :: cs)).2.2
            ≤ (off / BSIZE + 1) * BSIZE - off := by
          rw [hn1eq]
          exact n1_le_gap off _
        have hn1lt : (iappendBody inum s din off (c :: cs)).2.2 < (c :: cs).length := by
          omega
        have hfuel : ((c :: cs).drop ((iappendBody inum s din off (c :: cs)).2.2)).length
            ≤ k := by
          rw [List.length_drop, hpl]
          rw [hpl] at hf
          omega
        have hne : ((c :: cs).drop ((iappendBody inum s din off (c :: cs)).2.2)) ≠ [] := by
          have hld := List.length_drop ((iappendBody inum s din off (c :: cs)).2.2) (c :: cs)
          intro hc
          rw [hc] at hld
          simp at hld
          omega
        have hsum : MAXFILE * BSIZE < (off + (iappendBody inum s din off (c :: cs)).2.2)
            + ((c :: cs).drop ((iappendBody inum s din off (c :: cs)).2.2)).length := by
          rw [List.length_drop]
          omega
        simp only [iappendLoop]
        rw [if_pos hmax]
        exact ih _ _ _ _ hfuel hne hsum
      · simp only [iappendLoop]
        rw [if_neg hmax]

/-- iappend within the direct region: succeeds, grows the size, leaves the
indirect slot untouched. -/
theorem iappend_direct (s : BState) (inum : Nat) (p : List Nat)
    (hb : (rinode s inum).size + p.length ≤ NDIRECT * BSIZE) :
    ∃ s1, iappend s inum p = some s1 ∧
      (rinode s1 inum).size = (rinode s inum).size + p.length ∧
      (rinode s1 inum).addrs.getD NDIRECT 0 = (rinode s inum).addrs.getD NDIRECT 0 := by
  obtain ⟨s1, din1, heq, hpres⟩ := iappendLoop_direct inum p.length s (rinode s inum)
    (rinode s inum).size p (le_refl _) hb
  refine ⟨winode s1 inum { din1 with size := (rinode s inum).size + p.length }, ?_, ?_, ?_⟩
  · simp only [iappend]
    rw [heq]
  · rw [rinode_winode]
  · rw [rinode_winode]
    exact hpres

/-- iappend within the file size limit succeeds. -/
theorem iappend_total (s : BState) (inum : Nat) (p : List Nat)
    (hb : (rinode s inum).size + p.length ≤ MAXFILE * BSIZE) :
    (iappend s inum p).isSome = true := by
  obtain ⟨s1, din1, heq⟩ := iappendLoop_total inum p.length s (rinode s inum)
    (rinode s inum).size p (le_refl _) hb
  simp only [iappend]
  rw [heq]
  rfl

/-- iappend past the file size limit hits the assertion. -/
theorem iappend_overflow (s : BState) (inum : Nat) (p : List Nat) (hp : p ≠ [])
    (hb : MAXFILE * BSIZE < (rinode s inum).size + p.length) :
    iappend s inum p = none := by
  have heq := iappendLoop_overflow inum p.length s (rinode s inum)
    (rinode s inum).size p (le_refl _) hp hb
  simp only [iappend]
  rw [heq]

/-- A non-summary block never coincides with any segment's summary block. -/
theorem nonsummary_ne_bn (x y : Nat) (h4 : NMETA ≤ x)
    (hm : (x - NMETA) % SEGSIZE ≠ 0) : x ≠ NMETA + SEGNO y * SEGSIZE := by
  unfold SEGNO
  simp only [NMETA, SEGSIZE] at h4 hm ⊢
  omega

/-- Zero entries contribute nothing to the nonzero count. -/
theorem nonzeroCount_replicate (m : Nat) : nonzeroCount (List.replicate m 0) = 0 := by
  induction m with
  | zero => rfl
  | succ k ih =>
    show nonzeroCount (0 :: List.replicate k 0) = 0
    unfold nonzeroCount at ih ⊢
    rw [List.countP_cons]
    simp [ih]

/-- A fresh indirect block with exactly its first entry filled has exactly
one nonzero entry. -/
theorem nonzeroCount_replicate_set (n v : Nat) (hn : 0 < n) (hv : v ≠ 0) :
    nonzeroCount ((List.replicate n 0).set 0 v) = 1 := by
  cases n with
  | zero => omega
  | succ m =>
    show nonzeroCount (v :: List.replicate m 0) = 1
    unfold nonzeroCount
    rw [List.countP_cons]
    have hz := nonzeroCount_replicate m
    unfold nonzeroCount at hz
    simp [hz, hv]

/-- One loop iteration at offset NDIRECT*BSIZE with a free indirect slot:
the dinode gains the fresh indirect block address, imp is untouched, and
the indirect block on disk holds exactly the fresh data block at entry 0. -/
theorem iappendBody_indirect_first (s : BState) (inum byte : Nat)
    (hfb4 : NMETA ≤ s.freeblock)
    (hsz : (rinode s inum).size = NDIRECT * BSIZE)
    (hlen13 : (rinode s inum).addrs.length = NDIRECT + 1)
    (hnd0 : (rinode s inum).addrs.getD NDIRECT 0 = 0)
    (hindz : (s.disk (ballocNext s.freeblock)).asIndirect = List.replicate NINDIRECT 0) :
    (iappendBody inum s (rinode s inum) (rinode s inum).size [byte]).2.1
      = { rinode s inum with
          addrs := (rinode s inum).addrs.set NDIRECT (ballocNext s.freeblock) } ∧
    (iappendBody inum s (rinode s inum) (rinode s inum).size [byte]).1.imp = s.imp ∧
    (iappendBody inum s (rinode s inum) (rinode s inum).size [byte]).1.disk
        (ballocNext s.freeblock)
      = Block.indBlk ((List.replicate NINDIRECT 0).set 0
          (ballocNext (ballocNext s.freeblock + 1))) := by
  have hoff : (rinode s inum).size / BSIZE = NDIRECT := by
    rw [hsz]
    decide
  have hnd : ¬ ((rinode s inum).size / BSIZE < NDIRECT) := by
    rw [hoff]
    omega
  have hx1ge : s.freeblock ≤ ballocNext s.freeblock := ballocNext_ge _
  have hx1mod : (ballocNext s.freeblock - NMETA) % SEGSIZE ≠ 0 := ballocNext_mod _ hfb4
  have hgetx1 : ((rinode s inum).addrs.set NDIRECT (ballocNext s.freeblock)).getD NDIRECT 0
      = ballocNext s.freeblock :=
    getD_set_self _ _ _ _ (by rw [hlen13]; omega)
  have hdisk1 : (balloc s SEGSUM_INDIRECT inum 0).1.disk (ballocNext s.freeblock)
      = s.disk (ballocNext s.freeblock) := by
    rw [balloc_disk_at, if_neg (nonsummary_ne_bn _ _ (by omega) hx1mod)]
  have hb2 : (balloc s SEGSUM_INDIRECT inum 0).2 = ballocNext s.freeblock := rfl
  have hb3 : (balloc (balloc s SEGSUM_INDIRECT inum 0).1 SEGSUM_DATA inum NDIRECT).2
      = ballocNext (ballocNext s.freeblock + 1) := rfl
  have hnd2 : ¬ (NDIRECT < NDIRECT) := by omega
  have hrep0 : (List.replicate NINDIRECT (0 : Nat)).getD 0 0 = 0 := by decide
  have hx2ge : ballocNext s.freeblock + 1 ≤ ballocNext (ballocNext s.freeblock + 1) :=
    ballocNext_ge _
  have hx1nex2 : ¬ (ballocNext s.freeblock = ballocNext (ballocNext s.freeblock + 1)) := by
    omega
  have balloc_imp : ∀ (st : BState) (t i b : Nat), (balloc st t i b).1.imp = st.imp :=
    fun _ _ _ _ => rfl
  have wsect_imp : ∀ (st : BState) (sec : Nat) (b : Block), (wsect st sec b).imp = st.imp :=
    fun _ _ _ => rfl
  have wsect_disk : ∀ (st : BState) (sec n : Nat) (b : Block),
      (wsect st sec b).disk n = if n = sec then b else st.disk n :=
    fun _ _ _ _ => rfl
  have hgetx2 : ((List.replicate NINDIRECT (0 : Nat)).set 0
      (ballocNext (ballocNext s.freeblock + 1))).getD 0 0
      = ballocNext (ballocNext s.freeblock + 1) :=
    getD_set_self _ _ _ _ (by decide)
  simp only [iappendBody, rsect, hnd, hnd0, if_true, if_false, ite_true, ite_false,
    reduceIte, hb2, hb3, hgetx1, hoff, hnd2, Nat.sub_self, hdisk1, hindz, hrep0,
    wsect_imp, wsect_disk, balloc_imp, hx1nex2, hgetx2]
  exact ⟨trivial, trivial, trivial⟩

/-- iappend of one byte to a file of exactly NDIRECT*BSIZE bytes: succeeds,
grows the size by one, allocates one indirect block (its slot becomes
nonzero), and that block holds exactly one nonzero entry. -/
theorem iappend_first_indirect (s : BState) (inum byte : Nat)
    (hfb4 : NMETA ≤ s.freeblock)
    (himp : s.imp inum < s.freeblock)
    (hsz : (rinode s inum).size = NDIRECT * BSIZE)
    (hlen13 : (rinode s inum).addrs.length = NDIRECT + 1)
    (hnd0 : (rinode s inum).addrs.getD NDIRECT 0 = 0)
    (hindz : (s.disk (ballocNext s.freeblock)).asIndirect = List.replicate NINDIRECT 0) :
    ∃ s1, iappend s inum [byte] = some s1 ∧
      (rinode s1 inum).size = NDIRECT * BSIZE + 1 ∧
      (rinode s1 inum).addrs.getD NDIRECT 0 ≠ 0 ∧
      nonzeroCount ((s1.disk ((rinode s1 inum).addrs.getD NDIRECT 0)).asIndirect) = 1 := by
  obtain ⟨hdin, himp2, hdisk⟩ := iappendBody_indirect_first s inum byte hfb4 hsz hlen13 hnd0 hindz
  have hoff : (rinode s inum).size / BSIZE = NDIRECT := by
    rw [hsz]
    decide
  have hmax : (rinode s inum).size / BSIZE < MAXFILE := by
    rw [hoff]
    decide
  have hn1 : (iappendBody inum s (rinode s inum) (rinode s inum).size [byte]).2.2 = 1 := by
    rw [iappendBody_n1, hsz]
    simp only [List.length_cons, List.length_nil]
    decide
  have hloop : iappendLoop inum 1 s (rinode s inum) (rinode s inum).size [byte]
      = some ((iappendBody inum s (rinode s inum) (rinode s inum).size [byte]).1,
              (iappendBody inum s (rinode s inum) (rinode s inum).size [byte]).2.1,
              (rinode s inum).size + 1) := by
    simp only [iappendLoop]
    rw [if_pos hmax, hn1]
    rfl
  have happ : iappend s inum [byte]
      = some (winode (iappendBody inum s (rinode s inum) (rinode s inum).size [byte]).1 inum
          { (iappendBody inum s (rinode s inum) (rinode s inum).size [byte]).2.1 with
            size := (rinode s inum).size + 1 }) := by
    simp only [iappend, List.length_cons, List.length_nil]
    rw [hloop]
  have hx1ge := ballocNext_ge s.freeblock
  have hx : ((rinode s inum).addrs.set NDIRECT (ballocNext s.freeblock)).getD NDIRECT 0
      = ballocNext s.freeblock := getD_set_self _ _ _ _ (by rw [hlen13]; omega)
  refine ⟨_, happ, ?_, ?_, ?_⟩
  · rw [rinode_winode, hsz]
  · rw [rinode_winode]
    simp only [hdin, hx]
    simp only [NMETA] at hfb4
    omega
  · rw [rinode_winode]
    have hcond : ¬ (ballocNext s.freeblock
        = (iappendBody inum s (rinode s inum) (rinode s inum).size [byte]).1.imp inum) := by
      rw [himp2]
      omega
    simp only [hdin, hx, winode, wsect, hcond, if_false, ite_false, reduceIte, hdisk,
      Block.asIndirect]
    refine nonzeroCount_replicate_set _ _ (by decide) ?_
    have h2 := ballocNext_ge (ballocNext s.freeblock + 1)
    simp only [NMETA] at hfb4
    omega

/-- C2: boundary behaviour of the file appender.  (1) Appends that keep
the file within NDIRECT * BSIZE bytes succeed and never allocate an
indirect block (the indirect slot is untouched), so a file of exactly
NDIRECT * BSIZE bytes uses none.  (2) Appending one byte to a file of
exactly NDIRECT * BSIZE bytes succeeds and allocates exactly one indirect
block with exactly one nonzero entry.  (3) Appends up to
(NDIRECT + NINDIRECT) * BSIZE bytes succeed.  (4) One byte beyond that
limit makes the `fbn < MAXFILE` assertion fail (modelled as `none`). -/
theorem C2_iappend_boundaries :
    (∀ (s : BState) (inum : Nat) (p : List Nat),
      (rinode s inum).size + p.length ≤ NDIRECT * BSIZE →
      ∃ s1, iappend s inum p = some s1 ∧
        (rinode s1 inum).size = (rinode s inum).size + p.length ∧
        (rinode s1 inum).addrs.getD NDIRECT 0 = (rinode s inum).addrs.getD NDIRECT 0) ∧
    (∀ (s : BState) (inum byte : Nat),
      NMETA ≤ s.freeblock → s.imp inum < s.freeblock →
      (rinode s inum).size = NDIRECT * BSIZE →
      (rinode s inum).addrs.length = NDIRECT + 1 →
      (rinode s inum).addrs.getD NDIRECT 0 = 0 →
      (s.disk (ballocNext s.freeblock)).asIndirect = List.replicate NINDIRECT 0 →
      ∃ s1, iappend s inum [byte] = some s1 ∧
        (rinode s1 inum).size = NDIRECT * BSIZE + 1 ∧
        (rinode s1 inum).addrs.getD NDIRECT 0 ≠ 0 ∧
        nonzeroCount ((s1.disk ((rinode s1 inum).addrs.getD NDIRECT 0)).asIndirect) = 1) ∧
    (∀ (s : BState) (inum : Nat) (p : List Nat),
      (rinode s inum).size + p.length ≤ MAXFILE * BSIZE →
      (iappend s inum p).isSome = true) ∧
    (∀ (s : BState) (inum : Nat) (p : List Nat), p ≠ [] →
      MAXFILE * BSIZE < (rinode s inum).size + p.length →
      iappend s inum p = none) :=
  ⟨iappend_direct, iappend_first_indirect, iappend_total, iappend_overflow⟩

/-- Witness for C2 at concrete inputs: a fresh file for the direct and
total parts, a file of exactly NDIRECT * BSIZE bytes for the indirect
part, a file at the maximum size for the failure part. -/
theorem C2_iappend_boundaries_witness :
    (∃ s1, iappend (stateOfSize 0) 1 [7] = some s1 ∧
      (rinode s1 1).size = (rinode (stateOfSize 0) 1).size + [7].length ∧
      (rinode s1 1).addrs.getD NDIRECT 0
        = (rinode (stateOfSize 0) 1).addrs.getD NDIRECT 0) ∧
    (∃ s1, iappend (stateOfSize (NDIRECT * BSIZE)) 1 [7] = some s1 ∧
      (rinode s1 1).size = NDIRECT * BSIZE + 1 ∧
      (rinode s1 1).addrs.getD NDIRECT 0 ≠ 0 ∧
      nonzeroCount ((s1.disk ((rinode s1 1).addrs.getD NDIRECT 0)).asIndirect) = 1) ∧
    (iappend (stateOfSize 0) 1 [7]).isSome = true ∧
    iappend (stateOfSize (MAXFILE * BSIZE)) 1 [7] = none := by
  refine ⟨C2_iappend_boundaries.1 _ 1 [7] (by decide),
    C2_iappend_boundaries.2.1 _ 1 7 (by decide) (by decide) (by decide) (by decide)
      (by decide) (by decide),
    C2_iappend_boundaries.2.2.1 _ 1 [7] (by decide),
    C2_iappend_boundaries.2.2.2 _ 1 [7] (by decide) (by decide)⟩

/-- C1: in any sequence of builder allocations from the initial state,
every block balloc returns satisfies (b - NMETA) mod SEGSIZE ≠ 0 (a
segment-summary block is never returned); after the run the summary block
of each returned block's segment holds, at entry index b - bn - 1, exactly
the (block_type, inum, block_no) triple of that call — and since any
prefix of a run is itself a run, this already holds before the next balloc
call; the returned blocks strictly increase, so they are pairwise
distinct, and since a block determines its summary slot (bn, b - bn - 1)
uniquely, every allocated block has exactly one summary entry describing
it. -/
theorem C1_balloc_summary (rs : List SegEntry) :
    (∀ x ∈ (ballocRun rs initState).2, (x - NMETA) % SEGSIZE ≠ 0) ∧
    List.Forall₂ (fun r x => summaryEntryFor (ballocRun rs initState).1.disk x = r)
      rs (ballocRun rs initState).2 ∧
    List.Pairwise (fun x y => x < y) (ballocRun rs initState).2 := by
  have h := ballocRun_spec rs initState (le_refl _) (by intro n; rfl)
  exact ⟨fun x hx => (h.2.1 x hx).2.2.2, h.2.2.1, h.2.2.2.1⟩

/-- Updating the buffer with b's identity rewrites exactly b's node. -/
theorem updateBuf_decomp (c : Cache) (f : KBuf → KBuf) (l1 l2 : List KBuf) (b : KBuf)
    (hdec : c.bufs = l1 ++ b :: l2)
    (hnd : (c.bufs.map KBuf.idx).Nodup) :
    (updateBuf c b.idx f).bufs = l1 ++ f b :: l2 := by
  show c.bufs.map (fun x => if x.idx = b.idx then f x else x) = l1 ++ f b :: l2
  rw [hdec] at hnd ⊢
  rw [List.map_append, List.map_cons, if_pos rfl]
  rw [List.map_append, List.map_cons, List.nodup_middle] at hnd
  have hnotin := (List.nodup_cons.mp hnd).1
  have h1 : l1.map (fun x => if x.idx = b.idx then f x else x) = l1 := by
    have hid : ∀ x ∈ l1, (fun x => if x.idx = b.idx then f x else x) x = x := by
      intro x hx
      have hne : x.idx ≠ b.idx := by
        intro hcontra
        exact hnotin (List.mem_append.mpr (Or.inl
          (by rw [← hcontra]; exact List.mem_map_of_mem _ hx)))
      simp [hne]
    rw [List.map_congr_left hid]
    exact List.map_id l1
  have h2 : l2.map (fun x => if x.idx = b.idx then f x else x) = l2 := by
    have hid : ∀ x ∈ l2, (fun x => if x.idx = b.idx then f x else x) x = x := by
      intro x hx
      have hne : x.idx ≠ b.idx := by
        intro hcontra
        exact hnotin (List.mem_append.mpr (Or.inr
          (by rw [← hcontra]; exact List.mem_map_of_mem _ hx)))
      simp [hne]
    rw [List.map_congr_left hid]
    exact List.map_id l2
  rw [h1, h2]

/-- Pairwise invariant carries over an in-place update of one node, given
the two cross conditions against the updated node. -/
theorem updateBuf_pairwise (c : Cache) (b : KBuf) (f : KBuf → KBuf)
    (l1 l2 : List KBuf) (hdec : c.bufs = l1 ++ b :: l2)
    (hnd : (c.bufs.map KBuf.idx).Nodup)
    (hP : c.bufs.Pairwise BufRel)
    (hcross1 : ∀ a ∈ l1, BufRel a b → BufRel a (f b))
    (hcross2 : ∀ y ∈ l2, BufRel b y → BufRel (f b) y) :
    (updateBuf c b.idx f).bufs.Pairwise BufRel := by
  rw [updateBuf_decomp c f l1 l2 b hdec hnd]
  rw [hdec, List.pairwise_append] at hP
  obtain ⟨hl1, hbl2, hcross⟩ := hP
  rw [List.pairwise_cons] at hbl2
  rw [List.pairwise_append, List.pairwise_cons]
  refine ⟨hl1, ⟨fun y hy => hcross2 y hy (hbl2.1 y hy), hbl2.2⟩, ?_⟩
  intro a ha y hy
  rcases List.mem_cons.mp hy with rfl | hy2
  · exact hcross1 a ha (hcross a ha b (List.mem_cons_self b l2))
  · exact hcross a ha y (List.mem_cons_of_mem b hy2)

/-- A pointwise property of all buffers carries over an in-place update. -/
theorem updateBuf_forall (c : Cache) (b : KBuf) (f : KBuf → KBuf) (Q : KBuf → Prop)
    (hb : b ∈ c.bufs) (hnd : (c.bufs.map KBuf.idx).Nodup)
    (hQ : ∀ x ∈ c.bufs, Q x) (hQf : Q (f b)) :
    ∀ y ∈ (updateBuf c b.idx f).bufs, Q y := by
  intro y hy
  obtain ⟨x, hx, rfl⟩ := List.mem_map.mp hy
  by_cases hxi : x.idx = b.idx
  · have hxb : x = b := List.inj_on_of_nodup_map hnd hx hb hxi
    rw [if_pos hxi, hxb]
    exact hQf
  · rw [if_neg hxi]
    exact hQ x hx

/-- In-place updates that keep idx keep the identity list duplicate-free. -/
theorem updateBuf_nodup (c : Cache) (i : Nat) (f : KBuf → KBuf)
    (hf : ∀ x, (f x).idx = x.idx)
    (hnd : (c.bufs.map KBuf.idx).Nodup) :
    ((updateBuf c i f).bufs.map KBuf.idx).Nodup := by
  show ((c.bufs.map (fun x => if x.idx = i then f x else x)).map KBuf.idx).Nodup
  rw [List.map_map]
  have hid : ∀ x ∈ c.bufs,
      (KBuf.idx ∘ fun x => if x.idx = i then f x else x) x = KBuf.idx x := by
    intro x hx
    by_cases hxi : x.idx = i
    · simp [hxi, hf]
    · simp [hxi]
  rw [List.map_congr_left hid]
  exact hnd

/-- The updated node is in the updated cache. -/
theorem updateBuf_mem (c : Cache) (b : KBuf) (f : KBuf → KBuf) (hb : b ∈ c.bufs) :
    f b ∈ (updateBuf c b.idx f).bufs := by
  show f b ∈ c.bufs.map (fun x => if x.idx = b.idx then f x else x)
  rw [List.mem_map]
  exact ⟨b, hb, by rw [if_pos rfl]⟩

/-- In-place updates do not advance the ghost clock. -/
theorem updateBuf_clock (c : Cache) (i : Nat) (f : KBuf → KBuf) :
    (updateBuf c i f).clock = c.clock := rfl



theorem brelse_inv (c : Cache) (i : Nat) (c1 : Cache) (hc : CacheInv c)
    (h : brelse c i = some c1) : CacheInv c1 ∧ c.clock ≤ c1.clock := by
  obtain ⟨hnd, hP1, hP2⟩ := hc
  cases hfind : c.bufs.find? (fun b => b.idx = i) with
  | none =>
    simp [brelse, hfind] at h
  | some b =>
    simp only [brelse, hfind] at h
    have hbm : b ∈ c.bufs := List.mem_of_find?_eq_some hfind
    have hbid : b.idx = i := by
      have := List.find?_some hfind
      simpa using this
    cases hlock : b.lockHeld with
    | false =>
      rw [hlock] at h
      simp at h
    | true =>
      rw [hlock] at h
      simp only [if_true, ite_true] at h
      have hbref : 1 ≤ b.refcnt := (hP1 b hbm).2.1 hlock
      have hactb : activeBuf b := Or.inl (by omega)
      obtain ⟨l1, l2, hdec⟩ := List.append_of_mem hbm
      have hnd2 := hnd
      rw [hdec, List.map_append, List.map_cons, List.nodup_middle] at hnd2
      have hnotin := (List.nodup_cons.mp hnd2).1
      have hPdec := hP2
      rw [hdec, List.pairwise_append] at hPdec
      obtain ⟨hPl1, hPbl2, hPcross⟩ := hPdec
      rw [List.pairwise_cons] at hPbl2
      by_cases hr : b.refcnt - 1 = 0
      · rw [if_pos hr] at h
        obtain rfl := Option.some.inj h
        have hfilter : c.bufs.filter (fun x => x.idx ≠ i) = l1 ++ l2 := by
          rw [hdec, List.filter_append, List.filter_cons]
          have hbi : (decide (b.idx ≠ i)) = false := by simp [hbid]
          rw [hbi]
          have hf1 : l1.filter (fun x => decide (x.idx ≠ i)) = l1 := by
            refine List.filter_eq_self.mpr ?_
            intro x hx
            simp only [decide_eq_true_eq]
            intro hcontra
            exact hnotin (List.mem_append.mpr (Or.inl
              (by rw [hbid, ← hcontra]; exact List.mem_map_of_mem _ hx)))
          have hf2 : l2.filter (fun x => decide (x.idx ≠ i)) = l2 := by
            refine List.filter_eq_self.mpr ?_
            intro x hx
            simp only [decide_eq_true_eq]
            intro hcontra
            exact hnotin (List.mem_append.mpr (Or.inr
              (by rw [hbid, ← hcontra]; exact List.mem_map_of_mem _ hx)))
          rw [hf1, hf2]
          simp
        rw [hfilter]
        refine ⟨⟨?_, ?_, ?_⟩, by show c.clock ≤ c.clock + 1; omega⟩
        · show (({ b with refcnt := b.refcnt - 1, lockHeld := false, stamp := c.clock }
            :: (l1 ++ l2)).map KBuf.idx).Nodup
          rw [List.map_cons]
          show (b.idx :: (l1 ++ l2).map KBuf.idx).Nodup
          rw [List.nodup_cons]
          rw [List.map_append]
          exact ⟨(List.nodup_cons.mp hnd2).1, (List.nodup_cons.mp hnd2).2⟩
        · intro x hx
          rcases List.mem_cons.mp hx with rfl | hx2
          · refine ⟨by show (0:Int) ≤ b.refcnt - 1; omega, ?_, ?_⟩
            · intro hcontra
              simp at hcontra
            · show c.clock < c.clock + 1
              omega
          · have hxc : x ∈ c.bufs := by
              rw [hdec]
              rcases List.mem_append.mp hx2 with hx3 | hx3
              · exact List.mem_append.mpr (Or.inl hx3)
              · exact List.mem_append.mpr (Or.inr (List.mem_cons_of_mem b hx3))
            have := hP1 x hxc
            refine ⟨this.1, this.2.1, ?_⟩
            show x.stamp < c.clock + 1
            have := this.2.2
            omega
        · rw [List.pairwise_cons]
          constructor
          · intro y hy
            constructor
            · show b.dev = y.dev → b.blockno = y.blockno → ¬ activeBuf y
              intro hd hb2
              rcases List.mem_append.mp hy with hy2 | hy2
              · exact absurd hactb ((hPcross y hy2 b (List.mem_cons_self b l2)).1
                  hd.symm hb2.symm)
              · exact (hPbl2.1 y hy2).1 hd hb2
            · intro _ hy0
              show y.stamp < c.clock
              have hyc : y ∈ c.bufs := by
                rw [hdec]
                rcases List.mem_append.mp hy with hy2 | hy2
                · exact List.mem_append.mpr (Or.inl hy2)
                · exact List.mem_append.mpr (Or.inr (List.mem_cons_of_mem b hy2))
              exact (hP1 y hyc).2.2
          · refine hP2.sublist ?_
            rw [hdec]
            exact List.Sublist.append_left (List.sublist_cons_self b l2) l1
      · rw [if_neg hr] at h
        obtain rfl := Option.some.inj h
        rw [← hbid]
        refine ⟨⟨?_, ?_, ?_⟩, le_of_eq (updateBuf_clock c b.idx _).symm⟩
        · exact updateBuf_nodup c b.idx _ (fun x => rfl) hnd
        · rw [updateBuf_clock]
          refine updateBuf_forall c b _ _ hbm hnd hP1 ?_
          refine ⟨by show (0:Int) ≤ b.refcnt - 1; omega, ?_, (hP1 b hbm).2.2⟩
          intro hcontra
          simp at hcontra
        · refine updateBuf_pairwise c b _ l1 l2 hdec hnd hP2 ?_ ?_
          · intro a _ hab
            constructor
            · intro hd hb2
              exact absurd hactb (hab.1 hd hb2)
            · intro _ hcontra
              exact absurd hcontra (by show ¬ (b.refcnt - 1 = 0); exact hr)
          · intro y _ hby
            constructor
            · exact hby.1
            · intro hcontra
              exact absurd hcontra (by show ¬ (b.refcnt - 1 = 0); exact hr)



theorem bget_inv (c : Cache) (dev blockno : Nat) (c1 : Cache) (r : Option Nat)
    (h : bget c dev blockno = some (c1, r)) (hc : CacheInv c) :
    CacheInv c1 ∧ c1.clock = c.clock ∧
    (∀ i, r = some i → ∃ b1 ∈ c1.bufs, b1.idx = i ∧ 1 ≤ b1.refcnt ∧ b1.lockHeld = true) := by
  obtain ⟨hnd, hP1, hP2⟩ := hc
  cases hfind : c.bufs.find? (fun b => b.dev = dev && b.blockno = blockno) with
  | some b =>
    simp only [bget, hfind] at h
    cases hlock : b.lockHeld with
    | true =>
      rw [hlock] at h
      simp at h
    | false =>
      rw [hlock] at h
      simp only [Bool.false_eq_true, if_false, ite_false] at h
      have h2 := Option.some.inj h
      rw [Prod.mk.injEq] at h2
      obtain ⟨h3, h4⟩ := h2
      subst h3
      subst h4
      have hbm : b ∈ c.bufs := List.mem_of_find?_eq_some hfind
      have hpred := List.find?_some hfind
      simp only [Bool.and_eq_true, decide_eq_true_eq] at hpred
      obtain ⟨hbdev, hbbn⟩ := hpred
      have hfind2 := hfind
      rw [List.find?_eq_some] at hfind2
      obtain ⟨-, l1, l2, hdec, hl1⟩ := hfind2
      have hl1p : ∀ a ∈ l1, ¬ (a.dev = dev ∧ a.blockno = blockno) := by
        intro a ha
        have := hl1 a ha
        simp only [Bool.not_eq_eq_eq_not, Bool.not_true, Bool.and_eq_false_iff] at this
        intro ⟨hd, hb2⟩
        rcases this with hx | hx
        · simp [hd] at hx
        · simp [hb2] at hx
      have hbplus : (0:Int) ≤ b.refcnt := (hP1 b hbm).1
      refine ⟨⟨?_, ?_, ?_⟩, rfl, ?_⟩
      · exact updateBuf_nodup c b.idx _ (fun x => rfl) hnd
      · rw [updateBuf_clock]
        refine updateBuf_forall c b _ _ hbm hnd hP1 ?_
        refine ⟨?_, ?_, (hP1 b hbm).2.2⟩
        · show (0:Int) ≤ b.refcnt + 1
          omega
        · intro _
          show (1:Int) ≤ b.refcnt + 1
          omega
      · refine updateBuf_pairwise c b _ l1 l2 hdec hnd hP2 ?_ ?_
        · intro a ha _
          constructor
          · intro hd hb2
            exact absurd ⟨by rw [← hbdev]; exact hd, by rw [← hbbn]; exact hb2⟩ (hl1p a ha)
          · intro _ hcontra
            have : (0:Int) < b.refcnt + 1 := by omega
            exact absurd hcontra (by show ¬ (b.refcnt + 1 = 0); omega)
        · intro y _ hby
          constructor
          · exact hby.1
          · intro hcontra
            exact absurd hcontra (by show ¬ (b.refcnt + 1 = 0); omega)
      · intro i hi
        obtain rfl := Option.some.inj hi
        refine ⟨_, updateBuf_mem c b _ hbm, rfl, ?_, rfl⟩
        show (1:Int) ≤ b.refcnt + 1
        omega
  | none =>
    simp only [bget, hfind] at h
    cases hrfind : c.bufs.reverse.find? (fun b => b.refcnt = 0) with
    | none =>
      simp only [hrfind] at h
      have h2 := Option.some.inj h
      rw [Prod.mk.injEq] at h2
      obtain ⟨h3, h4⟩ := h2
      subst h3
      subst h4
      exact ⟨⟨hnd, hP1, hP2⟩, rfl, by intro i hi; cases hi⟩
    | some b =>
      simp only [hrfind] at h
      cases hlock : b.lockHeld with
      | true =>
        rw [hlock] at h
        simp at h
      | false =>
        rw [hlock] at h
        simp only [Bool.false_eq_true, if_false, ite_false] at h
        have h2 := Option.some.inj h
        rw [Prod.mk.injEq] at h2
        obtain ⟨h3, h4⟩ := h2
        subst h3
        subst h4
        have hbm : b ∈ c.bufs := List.mem_reverse.mp (List.mem_of_find?_eq_some hrfind)
        have hbr0 : b.refcnt = 0 := by
          have := List.find?_some hrfind
          simpa using this
        have houter : ∀ x ∈ c.bufs, ¬ (x.dev = dev ∧ x.blockno = blockno) := by
          intro x hx
          have := List.find?_eq_none.mp hfind x hx
          simp only [Bool.and_eq_true, decide_eq_true_eq, not_and] at this
          intro ⟨hd, hb2⟩
          exact this hd hb2
        obtain ⟨l1, l2, hdec⟩ := List.append_of_mem hbm
        refine ⟨⟨?_, ?_, ?_⟩, rfl, ?_⟩
        · exact updateBuf_nodup c b.idx _ (fun x => rfl) hnd
        · rw [updateBuf_clock]
          refine updateBuf_forall c b _ _ hbm hnd hP1 ?_
          exact ⟨by norm_num, fun _ => by norm_num, (hP1 b hbm).2.2⟩
        · refine updateBuf_pairwise c b _ l1 l2 hdec hnd hP2 ?_ ?_
          · intro a ha _
            constructor
            · intro hd hb2
              have ham : a ∈ c.bufs := by
                rw [hdec]
                exact List.mem_append.mpr (Or.inl ha)
              exact absurd ⟨hd, hb2⟩ (houter a ham)
            · intro _ hcontra
              exact absurd hcontra (by norm_num)
          · intro y hy _
            constructor
            · intro hd hb2
              have hym : y ∈ c.bufs := by
                rw [hdec]
                exact List.mem_append.mpr (Or.inr (List.mem_cons_of_mem b hy))
              exact absurd ⟨hd.symm, hb2.symm⟩ (houter y hym)
            · intro hcontra
              exact absurd hcontra (by norm_num)
        · intro i hi
          obtain rfl := Option.some.inj hi
          exact ⟨_, updateBuf_mem c b _ hbm, rfl, by norm_num, rfl⟩


theorem updateBuf_pinned_inv (c2 : Cache) (b1 : KBuf) (f : KBuf → KBuf)
    (hc2 : CacheInv c2) (hb1m : b1 ∈ c2.bufs) (hb1ref : 1 ≤ b1.refcnt)
    (hfidx : ∀ x, (f x).idx = x.idx)
    (hfdev : (f b1).dev = b1.dev) (hfbn : (f b1).blockno = b1.blockno)
    (hfref : (f b1).refcnt = b1.refcnt)
    (hfstamp : (f b1).stamp = b1.stamp)
    (hflock : (f b1).lockHeld = true → 1 ≤ (f b1).refcnt) :
    CacheInv (updateBuf c2 b1.idx f) := by
  obtain ⟨hnd2, hQ1, hQ2⟩ := hc2
  obtain ⟨l1, l2, hdec⟩ := List.append_of_mem hb1m
  have hact : activeBuf b1 := Or.inl (by omega)
  refine ⟨updateBuf_nodup _ _ _ hfidx hnd2, ?_, ?_⟩
  · rw [updateBuf_clock]
    refine updateBuf_forall c2 b1 f _ hb1m hnd2 hQ1 ?_
    exact ⟨by rw [hfref]; exact (hQ1 b1 hb1m).1, hflock,
      by rw [hfstamp]; exact (hQ1 b1 hb1m).2.2⟩
  · refine updateBuf_pairwise c2 b1 f l1 l2 hdec hnd2 hQ2 ?_ ?_
    · intro a _ hab
      constructor
      · intro hd hb2
        rw [hfdev] at hd
        rw [hfbn] at hb2
        exact absurd hact (hab.1 hd hb2)
      · intro _ hcontra
        rw [hfref] at hcontra
        exact absurd hcontra (by omega)
    · intro y _ hby
      constructor
      · intro hd hb2
        rw [hfdev] at hd
        rw [hfbn] at hb2
        exact hby.1 hd hb2
      · intro hcontra
        rw [hfref] at hcontra
        exact absurd hcontra (by omega)

theorem bread_inv (c : Cache) (dev blockno : Nat) (ok : Bool) (c1 : Cache) (r : Option Nat)
    (h : bread c dev blockno ok = some (c1, r)) (hc : CacheInv c) : CacheInv c1 := by
  unfold bread at h
  cases hget : bget c dev blockno with
  | none =>
    rw [hget] at h
    simp at h
  | some pr =>
    obtain ⟨c2, rr⟩ := pr
    obtain ⟨hc2, hclk, hpost⟩ := bget_inv c dev blockno c2 rr hget hc
    cases rr with
    | none =>
      simp only [hget] at h
      have h2 := Option.some.inj h
      rw [Prod.mk.injEq] at h2
      obtain ⟨h3, -⟩ := h2
      subst h3
      exact hc2
    | some i =>
      simp only [hget] at h
      obtain ⟨b1, hb1m, hb1idx, hb1ref, hb1lock⟩ := hpost i rfl
      by_cases hval : (getBuf c2 i).valid = true
      · rw [if_pos hval] at h
        have h2 := Option.some.inj h
        rw [Prod.mk.injEq] at h2
        obtain ⟨h3, -⟩ := h2
        subst h3
        exact hc2
      · rw [if_neg hval] at h
        cases ok with
        | true =>
          simp only [if_true, ite_true] at h
          have h2 := Option.some.inj h
          rw [Prod.mk.injEq] at h2
          obtain ⟨h3, -⟩ := h2
          subst h3
          rw [← hb1idx]
          refine updateBuf_pinned_inv c2 b1 _ hc2 hb1m hb1ref (fun x => rfl)
            rfl rfl rfl rfl ?_
          intro _
          show 1 ≤ b1.refcnt
          exact hb1ref
        | false =>
          simp only [Bool.false_eq_true, if_false, ite_false] at h
          have h2 := Option.some.inj h
          rw [Prod.mk.injEq] at h2
          obtain ⟨h3, -⟩ := h2
          subst h3
          rw [← hb1idx]
          refine updateBuf_pinned_inv c2 b1 _ hc2 hb1m hb1ref (fun x => rfl)
            rfl rfl rfl rfl ?_
          intro hcontra
          simp at hcontra

theorem cstep_inv (c : Cache) (op : COp) (c1 : Cache) (h : cstep c op = some c1)
    (hc : CacheInv c) : CacheInv c1 := by
  cases op with
  | bread d bn ok =>
    simp only [cstep] at h
    cases hb : bread c d bn ok with
    | none =>
      rw [hb] at h
      simp at h
    | some pr =>
      rw [hb] at h
      simp only [Option.map_some'] at h
      obtain rfl := Option.some.inj h
      exact bread_inv c d bn ok pr.1 pr.2 (by rw [hb]) hc
  | bget d bn =>
    simp only [cstep] at h
    cases hb : bget c d bn with
    | none =>
      rw [hb] at h
      simp at h
    | some pr =>
      rw [hb] at h
      simp only [Option.map_some'] at h
      obtain rfl := Option.some.inj h
      exact (bget_inv c d bn pr.1 pr.2 (by rw [hb]) hc).1
  | brelse i =>
    simp only [cstep] at h
    exact (brelse_inv c i c1 hc h).1

theorem cacheInit_inv : CacheInv cacheInit := by
  unfold CacheInv
  decide

theorem crun_inv (ops : List COp) (c : Cache) (h : crun ops = some c) : CacheInv c := by
  have hgen : ∀ (l : List COp) (c0 cf : Cache), CacheInv c0 →
      List.foldlM cstep c0 l = some cf → CacheInv cf := by
    intro l
    induction l with
    | nil =>
      intro c0 cf h0 hf
      rw [List.foldlM_nil] at hf
      obtain rfl := Option.some.inj hf
      exact h0
    | cons op rest ih =>
      intro c0 cf h0 hf
      rw [List.foldlM_cons] at hf
      cases hstep : cstep c0 op with
      | none =>
        rw [hstep] at hf
        simp at hf
      | some c2 =>
        rw [hstep] at hf
        exact ih c2 cf (cstep_inv c0 op c2 hstep h0) hf
  exact hgen ops cacheInit c cacheInit_inv h


/-- The cache state just before the 9th bread of the 9-block scenario:
8 bread/brelse pairs have run. -/
def pre9 : Cache := (crun (ops9.take 16)).getD cacheInit

/-- C7: in every reachable buffer-cache state produced by any serialized
sequence of bread/bget and brelse operations, at most one buffer in the
list has a given (dev, blockno) pair with refcnt > 0, and no two buffers
holding valid cached contents share the same (dev, blockno). -/
theorem C7_no_duplicate_cached (ops : List COp) (c : Cache)
    (h : crun ops = some c) :
    c.bufs.Pairwise (fun a b => a.dev = b.dev → a.blockno = b.blockno →
      ¬(0 < a.refcnt ∧ 0 < b.refcnt) ∧ ¬(a.valid = true ∧ b.valid = true)) := by
  refine (crun_inv ops c h).2.2.imp ?_
  intro a b hr hd hb2
  have hnact : ¬activeBuf b := hr.1 hd hb2
  constructor
  · intro hcontra
    exact hnact (Or.inl hcontra.2)
  · intro hcontra
    exact hnact (Or.inr hcontra.2)

theorem C7_no_duplicate_cached_witness :
    cache9.bufs.Pairwise (fun a b => a.dev = b.dev → a.blockno = b.blockno →
      ¬(0 < a.refcnt ∧ 0 < b.refcnt) ∧ ¬(a.valid = true ∧ b.valid = true)) :=
  C7_no_duplicate_cached ops9 cache9 (by decide)

/-- C8: (1) in every reachable buffer-cache state, among the buffers with
refcnt == 0 the release stamps strictly decrease from head.next towards
head.prev, so the head.prev-most free buffer is the least recently
released; (2) issuing bread for 9 distinct blocks serially while releasing
each succeeds every time, the first 8 calls filling buffers 0..7 and the
9th reusing buffer 0; (3) in the state just before the 9th call, buffer 0
— the one the 9th call reuses — has the smallest release stamp among the
refcnt == 0 buffers, i.e. it holds the oldest (least recently released)
block. -/
theorem C8_lru_discipline :
    (∀ (ops : List COp) (c : Cache), crun ops = some c →
      c.bufs.Pairwise (fun a b => a.refcnt = 0 → b.refcnt = 0 →
        b.stamp < a.stamp)) ∧
    (crunTrace ops9 cacheInit).map Prod.snd =
      some [some 0, some 1, some 2, some 3, some 4, some 5, some 6, some 7,
        some 0] ∧
    (∀ b ∈ pre9.bufs, b.refcnt = 0 → (getBuf pre9 0).stamp ≤ b.stamp) := by
  refine ⟨?_, by decide, by decide⟩
  intro ops c h
  exact (crun_inv ops c h).2.2.imp (fun hr => hr.2)

theorem C8_lru_discipline_witness :
    cache9.bufs.Pairwise (fun a b => a.refcnt = 0 → b.refcnt = 0 →
      b.stamp < a.stamp) :=
  C8_lru_discipline.1 ops9 cache9 (by decide)

end Rv6